import Mathlib

/-!
Verification of the pipeline orchestration core of a multi-stage text
classification system: stage registry with dependency resolution
(topological sort), per-stage fan-out task construction, dynamic schema
construction, and result merging. The definitions below are shallow
embeddings of the corresponding Python classes
(`StageRegistry`, `ElementExtractionStage`, `AttributeExtractionStage`,
`TaxonomySchemaFactory`, `ResultMerger`).
-/

set_option autoImplicit false

/-! ### Generic association-list helpers (Python `dict` semantics) -/

/-- Lookup in an insertion-ordered association list, like `dict.get`. -/
def alookup {β : Type} : List (String × β) → String → Option β
  | [], _ => none
  | p :: rest, k => if p.1 = k then some p.2 else alookup rest k

/-- `m[k] = v` on an insertion-ordered association list: replaces the value
at an existing key in place, otherwise appends the new pair at the end,
like assignment into a Python `dict`. -/
def upsert {β : Type} : List (String × β) → String → β → List (String × β)
  | [], k, v => [(k, v)]
  | p :: rest, k, v => if p.1 = k then (k, v) :: rest else p :: upsert rest k v

/-- Auxiliary for `dedupFirst`: keeps elements not already seen. -/
def dedupFirstAux : List String → List String → List String
  | _, [] => []
  | seen, x :: xs =>
    if x ∈ seen then dedupFirstAux seen xs else x :: dedupFirstAux (x :: seen) xs

/-- Remove duplicates keeping the first occurrence of each element,
like iterating a Python `dict`/`set` built by successive insertion. -/
def dedupFirst (l : List String) : List String := dedupFirstAux [] l

/-- Index of the first occurrence of `a` in the list (length if absent). -/
def idxOf : List String → String → Nat
  | [], _ => 0
  | x :: xs, a => if x = a then 0 else idxOf xs a + 1

/-- `{text: v for text in texts}`: one entry per distinct key, first
occurrence order. -/
def initResults {β : Type} (texts : List String) (v : β) : List (String × β) :=
  texts.foldl (fun m t => if (alookup m t).isSome then m else m ++ [(t, v)]) []

/-- Concatenation of the images of `f`, in order (a Python loop of appends). -/
def flatMapL {α β : Type} (f : α → List β) : List α → List β
  | [] => []
  | x :: xs => f x ++ flatMapL f xs

/-! ### Stage registry (`classifier/pipeline/registry.py`) -/

/-- A registered stage: its unique `name` and the names of the stages it
depends on (`Stage.name` / `Stage.dependencies`). -/
structure StageInfo where
  name : String
  deps : List String
deriving DecidableEq

/-- The registry's content: stages in registration order
(`StageRegistry._stages`). -/
abbrev Registry := List StageInfo

/-- Errors raised by the registry (the `ValueError`s of `registry.py`).
`outOfFuel` is the bookkeeping value for exhaustion of the step bound of
the dependency-closure loop; the bound chosen in `resolve_order` is
provably never exhausted. -/
inductive RegistryError where
  | unknownStage (name : String)
  | missingDep (stage dep : String)
  | cycle (remaining : List String)
  | outOfFuel
deriving DecidableEq

/-- All registered stage names (`list(self._stages.keys())`). -/
def registeredNames (reg : Registry) : List String := reg.map (fun st => st.name)

/-- `self._stages.get(name)`. -/
def lookupStage : Registry → String → Option StageInfo
  | [], _ => none
  | st :: rest, n => if st.name = n then some st else lookupStage rest n

/-- Inner loop of the dependency closure: `for dep in stage.dependencies`,
failing on an unregistered dependency, otherwise adding new names to both
the inclusion set and the (LIFO) work list. -/
def addDeps (reg : Registry) (stage : String) :
    List String → List String → List String →
    Except RegistryError (List String × List String)
  | [], inc, proc => .ok (inc, proc)
  | d :: ds, inc, proc =>
    if (lookupStage reg d).isSome then
      if d ∈ inc then addDeps reg stage ds inc proc
      else addDeps reg stage ds (inc ++ [d]) (d :: proc)
    else .error (.missingDep stage d)

/-- The `while to_process:` loop of `resolve_order`, computing the closure
of the requested stages under dependencies.  The work list is a stack
(Python appends to and pops from the end of `to_process`).  The `fuel`
argument bounds the number of iterations; `resolve_order` passes a bound
large enough that it can never run out. -/
def closureLoop (reg : Registry) :
    Nat → List String → List String → Except RegistryError (List String)
  | 0, _, _ => .error .outOfFuel
  | _ + 1, inc, [] => .ok inc
  | fuel + 1, inc, a :: rest =>
    match lookupStage reg a with
    | none => .error (.unknownStage a)
    | some st =>
      match addDeps reg a st.deps inc rest with
      | .error e => .error e
      | .ok (inc', proc') => closureLoop reg fuel inc' proc'

/-- `graph[name] = set(stage.dependencies) & to_include` for every included
stage. -/
def buildGraph (reg : Registry) (inc : List String) : List (String × List String) :=
  inc.filterMap (fun n =>
    match lookupStage reg n with
    | none => none
    | some st => some (n, st.deps.filter (fun d => decide (d ∈ inc))))

/-- The nodes of a dependency graph. -/
def graphKeys (graph : List (String × List String)) : List String :=
  graph.map (fun p => p.1)

/-- Dependencies of a node in the graph. -/
def lookupDeps (graph : List (String × List String)) (n : String) : Option (List String) :=
  alookup graph n

/-- `set(graph.keys()) - set(result)`: nodes not yet extracted. -/
def remainingNodes (graph : List (String × List String)) (result : List String) : List String :=
  (graphKeys graph).filter (fun n => decide (n ∉ result))

/-- A node is ready for extraction when all of its remaining dependencies
have been extracted (its in-degree has dropped to zero). -/
def isReady (graph : List (String × List String)) (result : List String) (n : String) : Bool :=
  match lookupDeps graph n with
  | some deps => deps.all (fun d => decide (d ∈ result))
  | none => false

/-- Kahn's algorithm: repeatedly extract a node with no remaining
dependencies; when none is extractable, succeed if every node was
extracted and otherwise fail naming the remaining (cyclic) set
(`StageRegistry._topological_sort`). -/
def kahnRun (graph : List (String × List String)) :
    Nat → List String → Except RegistryError (List String)
  | 0, result =>
    if remainingNodes graph result = [] then .ok result
    else .error (.cycle (remainingNodes graph result))
  | fuel + 1, result =>
    match (remainingNodes graph result).find? (isReady graph result) with
    | none =>
      if remainingNodes graph result = [] then .ok result
      else .error (.cycle (remainingNodes graph result))
    | some n => kahnRun graph fuel (result ++ [n])

/-- `StageRegistry._topological_sort`. One node is extracted per step, so
`graph.length` steps always suffice. -/
def topological_sort (graph : List (String × List String)) :
    Except RegistryError (List String) :=
  kahnRun graph (graphKeys graph).length []

/-- The list of stage names `resolve_order` works from: the explicit
request, or all registered stages when none is given. -/
def namesOf (reg : Registry) (stage_names : Option (List String)) : List String :=
  match stage_names with
  | none => registeredNames reg
  | some ns => ns

/-- `StageRegistry.resolve_order`: validate the requested names, close them
under transitive dependencies, build the induced dependency subgraph and
topologically sort it. -/
def resolve_order (reg : Registry) (stage_names : Option (List String))
    (include_dependencies : Bool := true) : Except RegistryError (List String) :=
  let names := namesOf reg stage_names
  match names.find? (fun n => (lookupStage reg n).isNone) with
  | some n => .error (.unknownStage n)
  | none =>
    let start := dedupFirst names
    let incResult :=
      if include_dependencies then
        closureLoop reg (reg.length + names.length + 1) start start
      else .ok start
    match incResult with
    | .error e => .error e
    | .ok inc => topological_sort (buildGraph reg inc)

/-- Transitive dependency between registered stages: `Depends reg a b`
holds when stage `a` (transitively) depends on stage `b`. -/
inductive Depends (reg : Registry) : String → String → Prop where
  | edge : ∀ a b st, lookupStage reg a = some st → b ∈ st.deps → Depends reg a b
  | tail : ∀ a b c st, lookupStage reg a = some st → c ∈ st.deps →
      Depends reg c b → Depends reg a b

/-- A nonempty dependency path whose vertices all lie in `allowed`. -/
inductive DepPath (reg : Registry) (allowed : List String) : String → String → Prop where
  | edge : ∀ a b st, a ∈ allowed → b ∈ allowed → lookupStage reg a = some st →
      b ∈ st.deps → DepPath reg allowed a b
  | tail : ∀ a b c st, a ∈ allowed → c ∈ allowed → lookupStage reg a = some st →
      c ∈ st.deps → DepPath reg allowed c b → DepPath reg allowed a b

/-- A witness that the registered dependency graph is acyclic: a linear
order on stage names placing every stage after all of its dependencies. -/
def GoodOrderReg (reg : Registry) (ord : List String) : Prop :=
  ord.Nodup ∧ (∀ st ∈ reg, st.name ∈ ord) ∧
    ∀ st ∈ reg, ∀ d ∈ st.deps, idxOf ord d < idxOf ord st.name

/-- Invariant of the extraction loop of Kahn's algorithm: the extracted
list is duplicate-free, consists of graph nodes, and places every node
after all of its in-graph dependencies. -/
def KahnInv (graph : List (String × List String)) (result : List String) : Prop :=
  result.Nodup ∧ (∀ n ∈ result, n ∈ graphKeys graph) ∧
    ∀ a ∈ result, ∀ deps, lookupDeps graph a = some deps →
      ∀ d ∈ deps, d ∈ result ∧ idxOf result d < idxOf result a

/-! ### Taxonomy content and dynamic schemas (`classifier/schemas/factory.py`) -/

/-- Sentiment values (`SentimentType`). -/
inductive Sentiment where
  | positive
  | negative
  | neutral
  | mixed
deriving DecidableEq

/-- The taxonomy queries the schema factory makes of its content
provider. -/
structure ContentProvider where
  get_all_category_names : List String
  get_all_element_names : String → List String
  get_all_attribute_names : String → String → List String

/-- Schema-construction failures (the `ValueError`s of `factory.py`). -/
inductive SchemaError where
  | noCategories
  | noElements (category : String)
deriving DecidableEq

/-- Output contract of stage 1: `categories_present` constrained to the
taxonomy's category names. -/
structure Stage1Schema where
  categoryNames : List String
deriving DecidableEq

/-- Output contract of stage 2 for one category: elements constrained to
that category's element names. -/
structure Stage2Schema where
  category : String
  elementNames : List String
deriving DecidableEq

/-- Output contract of stage 3 for one (category, element) pair.
`attributeNames = none` is the degenerate contract built when the element
has no defined attributes: the attribute list is unconstrained and may be
empty, and the schema carries no `sentiment_consensus` field. -/
structure Stage3Schema where
  category : String
  element : String
  attributeNames : Option (List String)
  hasSentimentConsensus : Bool
deriving DecidableEq

/-- Schema construction for stage 1 (cache aside): fails when the content
provider has no categories. -/
def build_stage1_schema (content : ContentProvider) : Except SchemaError Stage1Schema :=
  if content.get_all_category_names.isEmpty then .error .noCategories
  else .ok ⟨content.get_all_category_names⟩

/-- Schema construction for stage 2 (cache aside): fails when the category
has no defined elements. -/
def build_stage2_schema (content : ContentProvider) (category : String) :
    Except SchemaError Stage2Schema :=
  let element_names := content.get_all_element_names category
  if element_names.isEmpty then .error (.noElements category)
  else .ok ⟨category, element_names⟩

/-- Schema construction for stage 3 (cache aside): an element with no
defined attributes yields the degenerate contract instead of failing. -/
def build_stage3_schema (content : ContentProvider) (category element : String) :
    Stage3Schema :=
  let attribute_names := content.get_all_attribute_names category element
  if attribute_names.isEmpty then ⟨category, element, none, false⟩
  else ⟨category, element, some attribute_names, true⟩

/-- The factory's mutable cache (`_stage1_schema`, `_stage2_schemas`,
`_stage3_schemas`). -/
structure FactoryState where
  stage1 : Option Stage1Schema
  stage2 : List (String × Stage2Schema)
  stage3 : List (String × Stage3Schema)
deriving DecidableEq

/-- A freshly constructed factory. -/
def emptyFactoryState : FactoryState := ⟨none, [], []⟩

/-- `TaxonomySchemaFactory.get_stage1_schema`: singleton cache. -/
def get_stage1_schema (content : ContentProvider) (s : FactoryState) :
    Except SchemaError Stage1Schema × FactoryState :=
  match s.stage1 with
  | some sch => (.ok sch, s)
  | none =>
    match build_stage1_schema content with
    | .error e => (.error e, s)
    | .ok sch => (.ok sch, { s with stage1 := some sch })

/-- `TaxonomySchemaFactory.get_stage2_schema`: cached by category name. -/
def get_stage2_schema (content : ContentProvider) (s : FactoryState) (category : String) :
    Except SchemaError Stage2Schema × FactoryState :=
  match alookup s.stage2 category with
  | some sch => (.ok sch, s)
  | none =>
    match build_stage2_schema content category with
    | .error e => (.error e, s)
    | .ok sch => (.ok sch, { s with stage2 := upsert s.stage2 category sch })

/-- `TaxonomySchemaFactory.get_stage3_schema`: cached under the string key
`f"{category}:{element}"`. -/
def get_stage3_schema (content : ContentProvider) (s : FactoryState)
    (category element : String) : Stage3Schema × FactoryState :=
  let cache_key := category ++ ":" ++ element
  match alookup s.stage3 cache_key with
  | some sch => (sch, s)
  | none =>
    let sch := build_stage3_schema content category element
    (sch, { s with stage3 := upsert s.stage3 cache_key sch })

/-! ### Stage outputs and pipeline context (`classifier/pipeline/interfaces.py`) -/

/-- Stage 1 output for one text (`Stage1Output`). -/
structure Stage1Out where
  categories_present : List String
deriving DecidableEq

/-- One element detection of stage 2.  Fields are optional because the
downstream consumers probe them with `getattr(..., default)`. -/
structure ElemDet where
  element : Option String
  sentiment : Option Sentiment
  confidence : Option Int
  excerpt : Option String
deriving DecidableEq

/-- Stage 2 output for one (text, category) pair. -/
structure Stage2Out where
  elements : List ElemDet
deriving DecidableEq

/-- One attribute detection of stage 3, fields probed with defaults. -/
structure AttrDet where
  «attribute» : Option String
  sentiment : Option Sentiment
  confidence : Option Int
  excerpt : Option String
deriving DecidableEq

/-- Stage 3 output for one (text, category::element) key. -/
structure Stage3Out where
  attributes : List AttrDet
deriving DecidableEq

/-- The pipeline context's per-stage result sections, keyed by original
text: `context["category_detection"]`, `context["element_extraction"]`,
`context["attribute_extraction"]`. -/
structure Ctx where
  stage1 : List (String × Stage1Out)
  stage2 : List (String × List (String × Stage2Out))
  stage3 : List (String × List (String × Stage3Out))

/-! ### Stage 2: element extraction (`stages/element_extraction/stage.py`) -/

/-- A stage-2 fan-out task: one LLM call per (text, detected category). -/
structure ElementExtractionTask where
  text : String
  category : String
deriving DecidableEq

/-- `ElementExtractionStage._build_tasks`: one task per (text, category
detected by stage 1 for that text); texts without a stage-1 entry are
skipped. -/
def elementExtraction_build_tasks (texts : List String) (ctx : Ctx) :
    List ElementExtractionTask :=
  flatMapL (fun text =>
    match alookup ctx.stage1 text with
    | none => []
    | some s1 => s1.categories_present.map (fun c => ⟨text, c⟩)) texts

/-- `ElementExtractionStage.process`: build the fan-out tasks, submit them
as one ordered batch to the LLM collaborator, and group the responses back
by text, keyed by category.  The collaborator is modelled as a function
from the ordered task list to the ordered response list (the
order-preservation contract of `batch_generate`). -/
def elementExtractionProcess (texts : List String) (ctx : Ctx)
    (llm : List ElementExtractionTask → List Stage2Out) :
    List (String × List (String × Stage2Out)) :=
  let tasks := elementExtraction_build_tasks texts ctx
  match tasks with
  | [] => initResults texts []
  | _ :: _ =>
    let responses := llm tasks
    (tasks.zip responses).foldl
      (fun results tr =>
        upsert results tr.1.text
          (upsert ((alookup results tr.1.text).getD []) tr.1.category tr.2))
      (initResults texts [])

/-! ### Stage 3: attribute extraction (`stages/attribute_extraction/stage.py`) -/

/-- A stage-3 fan-out task: one LLM call per (text, category, detected
element), carrying the element's sentiment and excerpt down. -/
structure AttributeExtractionTask where
  text : String
  category : String
  element : String
  element_sentiment : Sentiment
  element_excerpt : String
deriving DecidableEq

/-- `AttributeExtractionStage._build_tasks`: two-level fan-out over stage
2's per-category element detections; detections with a missing or empty
element name are skipped. -/
def attributeExtraction_build_tasks (texts : List String) (ctx : Ctx) :
    List AttributeExtractionTask :=
  flatMapL (fun text =>
    match alookup ctx.stage2 text with
    | none => []
    | some s2 =>
      flatMapL (fun p =>
        p.2.elements.filterMap (fun det =>
          match det.element with
          | none => none
          | some en =>
            if en = "" then none
            else some ⟨text, p.1, en, det.sentiment.getD .neutral, det.excerpt.getD ""⟩)) s2)
    texts

/-- `AttributeExtractionStage.process`: like stage 2, but results are keyed
back by the composite key `f"{category}::{element}"`. -/
def attributeExtractionProcess (texts : List String) (ctx : Ctx)
    (llm : List AttributeExtractionTask → List Stage3Out) :
    List (String × List (String × Stage3Out)) :=
  let tasks := attributeExtraction_build_tasks texts ctx
  match tasks with
  | [] => initResults texts []
  | _ :: _ =>
    let responses := llm tasks
    (tasks.zip responses).foldl
      (fun results tr =>
        upsert results tr.1.text
          (upsert ((alookup results tr.1.text).getD [])
            (tr.1.category ++ "::" ++ tr.1.element) tr.2))
      (initResults texts [])

/-! ### Result merger (`classifier/pipeline/merger.py`) -/

/-- Final attribute node (`AttributeResult`). -/
structure AttributeResult where
  name : String
  sentiment : Sentiment
  confidence : Int
  excerpt : String
deriving DecidableEq

/-- Final element node with nested attributes (`ElementResult`). -/
structure ElementResult where
  name : String
  sentiment : Sentiment
  confidence : Int
  excerpt : String
  attributes : List AttributeResult
deriving DecidableEq

/-- Final category node with nested elements (`CategoryResult`). -/
structure CategoryResult where
  name : String
  elements : List ElementResult
deriving DecidableEq

/-- Merged per-text result (`FinalClassificationOutput`). -/
structure FinalClassificationOutput where
  text : String
  categories : List CategoryResult
deriving DecidableEq

/-- Loop body of the innermost loop of `ResultMerger._merge_single`:
append one merged attribute, skipping detections with a missing or empty
attribute name and defaulting missing sentiment, confidence and excerpt to
`neutral`, `3` and `""`. -/
def mergeAttrStep (attrs : List AttributeResult) (attr_det : AttrDet) :
    List AttributeResult :=
  match attr_det.«attribute» with
  | none => attrs
  | some attr_name =>
    if attr_name = "" then attrs
    else attrs ++ [{ name := attr_name,
                     sentiment := attr_det.sentiment.getD .neutral,
                     confidence := attr_det.confidence.getD 3,
                     excerpt := attr_det.excerpt.getD "" }]

/-- Loop body of the element loop of `ResultMerger._merge_single`: append
one merged element (with its merged attributes looked up under
`f"{category}::{element}"`), skipping detections with a missing or empty
element name. -/
def mergeElemStep (stage3 : List (String × Stage3Out)) (cat_name : String)
    (elems : List ElementResult) (elem_det : ElemDet) : List ElementResult :=
  match elem_det.element with
  | none => elems
  | some elem_name =>
    if elem_name = "" then elems
    else
      elems ++ [{ name := elem_name,
                  sentiment := elem_det.sentiment.getD .neutral,
                  confidence := elem_det.confidence.getD 3,
                  excerpt := elem_det.excerpt.getD "",
                  attributes :=
                    match alookup stage3 (cat_name ++ "::" ++ elem_name) with
                    | none => []
                    | some elem_stage3 =>
                      elem_stage3.attributes.foldl mergeAttrStep [] }]

/-- Loop body of the category loop of `ResultMerger._merge_single`: append
one category with the elements merged from the category's stage-2 result
(absent stage-2 entry means an empty element list). -/
def mergeCatStep (stage2 : List (String × Stage2Out))
    (stage3 : List (String × Stage3Out)) (cats : List CategoryResult)
    (cat_name : String) : List CategoryResult :=
  cats ++ [{ name := cat_name,
             elements :=
               match alookup stage2 cat_name with
               | none => []
               | some cat_stage2 =>
                 cat_stage2.elements.foldl (mergeElemStep stage3 cat_name) [] }]

/-- `ResultMerger._merge_single`: reconstruct the nested tree for one text
from its stage-1 category list and the per-category / per-element flat
maps, probing optional fields with defaults and silently skipping
detections with a missing or empty name. -/
def merge_single (text : String) (stage1 : Option Stage1Out)
    (stage2 : List (String × Stage2Out)) (stage3 : List (String × Stage3Out)) :
    FinalClassificationOutput :=
  let categories_present :=
    match stage1 with
    | some s1 => s1.categories_present
    | none => []
  { text := text,
    categories := categories_present.foldl (mergeCatStep stage2 stage3) [] }

/-- `ResultMerger.merge`: one merged output per text present in stage 1's
results; stage-2 and stage-3 sections absent for a text default to empty
maps. -/
def merge (ctx : Ctx) : List (String × FinalClassificationOutput) :=
  ctx.stage1.foldl (fun results p =>
    upsert results p.1
      (merge_single p.1 (alookup ctx.stage1 p.1)
        ((alookup ctx.stage2 p.1).getD [])
        ((alookup ctx.stage3 p.1).getD []))) []

/-- One flat export row.  The three constructors mirror the three dict
shapes `ResultMerger.to_flat_records` emits: a category with no elements,
an element with no attributes, and one row per attribute.  Constant
`None`-valued keys of the Python dicts are implicit in the constructor;
note the attribute row carries the element's sentiment and confidence but
no element excerpt, and the category-only row carries no confidences or
excerpts. -/
inductive FlatRecord where
  | categoryOnly (text category : String)
  | elementOnly (text category element : String) (element_sentiment : Sentiment)
      (element_confidence : Int) (element_excerpt : String)
  | attributeRow (text category element : String) (element_sentiment : Sentiment)
      (element_confidence : Int) («attribute» : String) (attribute_sentiment : Sentiment)
      (attribute_confidence : Int) (attribute_excerpt : String)
deriving DecidableEq

/-- Innermost loop body of `ResultMerger.to_flat_records`: one row per
attribute, carrying the ancestor chain minus the element excerpt. -/
def flatAttrStep (text category element : String) (esent : Sentiment) (econf : Int)
    (records : List FlatRecord) (attr : AttributeResult) : List FlatRecord :=
  records ++ [.attributeRow text category element esent econf
    attr.name attr.sentiment attr.confidence attr.excerpt]

/-- Element loop body of `ResultMerger.to_flat_records`: an element-only
row when the element has no attributes, else one row per attribute. -/
def flatElemStep (text category : String) (records : List FlatRecord)
    (elem : ElementResult) : List FlatRecord :=
  if elem.attributes.isEmpty then
    records ++ [.elementOnly text category elem.name elem.sentiment
      elem.confidence elem.excerpt]
  else
    elem.attributes.foldl (flatAttrStep text category elem.name elem.sentiment
      elem.confidence) records

/-- Category loop body of `ResultMerger.to_flat_records`: a category-only
row when the category has no elements. -/
def flatCatStep (text : String) (records : List FlatRecord)
    (cat : CategoryResult) : List FlatRecord :=
  if cat.elements.isEmpty then records ++ [.categoryOnly text cat.name]
  else cat.elements.foldl (flatElemStep text cat.name) records

/-- `ResultMerger.to_flat_records`: denormalize the merged trees into one
row per leaf (attribute if present, else element, else category-only). -/
def to_flat_records (results : List (String × FinalClassificationOutput)) :
    List FlatRecord :=
  results.foldl (fun records p => p.2.categories.foldl (flatCatStep p.1) records) []

/-- The text of a flat row. -/
def recordText : FlatRecord → String
  | .categoryOnly t _ => t
  | .elementOnly t _ _ _ _ _ => t
  | .attributeRow t _ _ _ _ _ _ _ _ => t

/-- The category of a flat row. -/
def recordCategory : FlatRecord → String
  | .categoryOnly _ c => c
  | .elementOnly _ c _ _ _ _ => c
  | .attributeRow _ c _ _ _ _ _ _ _ => c

/-- The element excerpt carried by a flat row, when the row has such a
field at all: only the element-only row shape does. -/
def recordElementExcerpt : FlatRecord → Option String
  | .elementOnly _ _ _ _ _ e => some e
  | _ => none

/-! ### Specification-shaped companions used to state the merger claims -/

/-- The attribute list `_merge_single` builds from one stage-3 result,
written as a `filterMap`. -/
def mergeAttributesSpec (attrs : List AttrDet) : List AttributeResult :=
  attrs.filterMap (fun attr_det =>
    match attr_det.«attribute» with
    | none => none
    | some attr_name =>
      if attr_name = "" then none
      else some { name := attr_name,
                  sentiment := attr_det.sentiment.getD .neutral,
                  confidence := attr_det.confidence.getD 3,
                  excerpt := attr_det.excerpt.getD "" })

/-- The element list `_merge_single` builds for one category, written as a
`filterMap`. -/
def mergeElementsSpec (stage3 : List (String × Stage3Out)) (cat_name : String)
    (dets : List ElemDet) : List ElementResult :=
  dets.filterMap (fun elem_det =>
    match elem_det.element with
    | none => none
    | some elem_name =>
      if elem_name = "" then none
      else some { name := elem_name,
                  sentiment := elem_det.sentiment.getD .neutral,
                  confidence := elem_det.confidence.getD 3,
                  excerpt := elem_det.excerpt.getD "",
                  attributes :=
                    match alookup stage3 (cat_name ++ "::" ++ elem_name) with
                    | none => []
                    | some elem_stage3 => mergeAttributesSpec elem_stage3.attributes })

/-- The category list `_merge_single` builds, written as a `map`. -/
def mergeCategoriesSpec (stage2 : List (String × Stage2Out))
    (stage3 : List (String × Stage3Out)) (categories_present : List String) :
    List CategoryResult :=
  categories_present.map (fun cat_name =>
    { name := cat_name,
      elements :=
        match alookup stage2 cat_name with
        | none => []
        | some cat_stage2 => mergeElementsSpec stage3 cat_name cat_stage2.elements })

/-- The rows `to_flat_records` emits for one category of one text, written
with `flatMapL`. -/
def catRecords (text : String) (cat : CategoryResult) : List FlatRecord :=
  if cat.elements.isEmpty then [.categoryOnly text cat.name]
  else
    flatMapL (fun elem =>
      if elem.attributes.isEmpty then
        [.elementOnly text cat.name elem.name elem.sentiment elem.confidence elem.excerpt]
      else
        elem.attributes.map (fun attr =>
          FlatRecord.attributeRow text cat.name elem.name elem.sentiment elem.confidence
            attr.name attr.sentiment attr.confidence attr.excerpt)) cat.elements

/-! ### Concrete fixtures for the claims' witnesses -/

/-- The standard three-stage pipeline registry. -/
def defaultRegistry : Registry :=
  [⟨"category_detection", []⟩,
   ⟨"element_extraction", ["category_detection"]⟩,
   ⟨"attribute_extraction", ["element_extraction"]⟩]

/-- Two stages depending on each other. -/
def twoCycleRegistry : Registry := [⟨"A", ["B"]⟩, ⟨"B", ["A"]⟩]

/-- A content provider with one category `A` that has no elements, and no
attributes anywhere. -/
def gapContent : ContentProvider :=
  ⟨["A"], fun _ => [], fun _ _ => []⟩

/-- A content provider used to exhibit the stage-3 cache-key collision. -/
def collisionContent : ContentProvider :=
  ⟨["a:b", "a"], fun _ => ["c", "b:c"], fun _ _ => []⟩

/-- Every member of the final inclusion set whose work-list entry has been
processed has all of its dependencies included. -/
def ClosedPending (reg : Registry) (inc proc : List String) : Prop :=
  ∀ n ∈ inc, n ∉ proc → ∀ st, lookupStage reg n = some st → ∀ d ∈ st.deps, d ∈ inc

/-- Number of registered names not yet included: the termination measure of
the closure loop. -/
def missingCount (reg : Registry) (inc : List String) : Nat :=
  ((registeredNames reg).toFinset \ inc.toFinset).card

/-- A linear order witnessing acyclicity of a dependency graph. -/
def GoodOrderGraph (graph : List (String × List String)) (ord : List String) : Prop :=
  ord.Nodup ∧ (∀ k ∈ graphKeys graph, k ∈ ord) ∧
    ∀ n deps, lookupDeps graph n = some deps → ∀ d ∈ deps, idxOf ord d < idxOf ord n

/-- Synthetic context of the merge round-trip scenario: one text with
stage-1 categories `[A, B]`, stage-2 element `X` under `A` and nothing
under `B`, and stage-3 attribute `P` under `A::X`. -/
def mergeCtxRoundTrip : Ctx :=
  ⟨[("t", ⟨["A", "B"]⟩)],
   [("t", [("A", ⟨[⟨some "X", some .positive, some 4, some "ex"⟩]⟩),
           ("B", ⟨[]⟩)])],
   [("t", [("A::X", ⟨[⟨some "P", some .negative, some 2, some "ey"⟩]⟩)])]⟩

/-- A merged output with two categories, one with an element and one
without. -/
def flatOutputTwoCats : FinalClassificationOutput :=
  ⟨"t", [⟨"C1", [⟨"X", .positive, 4, "e", []⟩]⟩, ⟨"C2", []⟩]⟩

/-- A context whose only text has a stage-1 entry with zero detected
categories. -/
def emptyDetectCtx : Ctx := ⟨[("t", ⟨[]⟩)], [], []⟩

/-! ### Lemmas about the association-list helpers -/

theorem alookup_upsert_self {β : Type} (m : List (String × β)) (k : String) (v : β) :
    alookup (upsert m k v) k = some v := by
  induction m with
  | nil => simp [alookup, upsert]
  | cons p rest ih =>
    by_cases h : p.1 = k
    · simp [alookup, upsert, h]
    · simp [alookup, upsert, h, ih]

theorem alookup_upsert_ne {β : Type} (m : List (String × β)) (k k' : String) (v : β)
    (h : k ≠ k') : alookup (upsert m k v) k' = alookup m k' := by
  induction m with
  | nil => simp [alookup, upsert, h]
  | cons p rest ih =>
    by_cases hp : p.1 = k
    · simp [alookup, upsert, hp, h]
    · simp only [upsert, if_neg hp, alookup]
      by_cases hp' : p.1 = k'
      · simp [hp']
      · simp [hp', ih]

theorem keys_upsert_mem {β : Type} (m : List (String × β)) (k : String) (v : β)
    (h : k ∈ m.map (fun p => p.1)) :
    (upsert m k v).map (fun p => p.1) = m.map (fun p => p.1) := by
  induction m with
  | nil => simp at h
  | cons p rest ih =>
    by_cases hp : p.1 = k
    · simp [upsert, hp]
    · simp only [List.map_cons, List.mem_cons] at h
      rcases h with h | h
    
      · exact absurd h.symm hp
      · simp [upsert, hp, ih h]

theorem alookup_isSome_iff_mem_keys {β : Type} (m : List (String × β)) (k : String) :
    (alookup m k).isSome ↔ k ∈ m.map (fun p => p.1) := by
  induction m with
  | nil => simp [alookup]
  | cons p rest ih =>
    by_cases hp : p.1 = k
    · simp [alookup, hp]
    · simp [alookup, hp, ih, Ne.symm hp]

theorem alookup_append {β : Type} (m₁ m₂ : List (String × β)) (k : String) :
    alookup (m₁ ++ m₂) k =
      match alookup m₁ k with
      | some v => some v
      | none => alookup m₂ k := by
  induction m₁ with
  | nil => simp [alookup]
  | cons p rest ih =>
    by_cases hp : p.1 = k
    · simp [alookup, hp]
    · simp [alookup, hp, ih]

theorem mem_flatMapL {α β : Type} (f : α → List β) (l : List α) (b : β) :
    b ∈ flatMapL f l ↔ ∃ a ∈ l, b ∈ f a := by
  induction l with
  | nil => simp [flatMapL]
  | cons x xs ih => simp [flatMapL, ih]

theorem flatMapL_append {α β : Type} (f : α → List β) (l₁ l₂ : List α) :
    flatMapL f (l₁ ++ l₂) = flatMapL f l₁ ++ flatMapL f l₂ := by
  induction l₁ with
  | nil => simp [flatMapL]
  | cons x xs ih => simp [flatMapL, ih]

theorem filter_flatMapL {α β : Type} (f : α → List β) (p : β → Bool) (l : List α) :
    (flatMapL f l).filter p = flatMapL (fun a => (f a).filter p) l := by
  induction l with
  | nil => simp [flatMapL]
  | cons x xs ih => simp [flatMapL, List.filter_append, ih]

theorem mem_dedupFirstAux (seen l : List String) (x : String) :
    x ∈ dedupFirstAux seen l ↔ x ∈ l ∧ x ∉ seen := by
  induction l generalizing seen with
  | nil => simp [dedupFirstAux]
  | cons a as ih =>
    by_cases ha : a ∈ seen
    · rw [dedupFirstAux, if_pos ha, ih]
      constructor
      · rintro ⟨h1, h2⟩; exact ⟨.tail _ h1, h2⟩
      · rintro ⟨h1, h2⟩
        cases h1 with
        | head => exact absurd ha h2
        | tail _ h => exact ⟨h, h2⟩
    · rw [dedupFirstAux, if_neg ha]
      constructor
      · intro h
        cases h with
        | head => exact ⟨.head _, ha⟩
        | tail _ h =>
          have h' := (ih (a :: seen)).1 h
          refine ⟨.tail _ h'.1, fun hx => h'.2 (.tail _ hx)⟩
      · rintro ⟨h1, h2⟩
        cases h1 with
        | head => exact .head _
        | tail _ h =>
          by_cases hxa : x = a
          · subst hxa; exact .head _
          · exact .tail _ ((ih _).2 ⟨h, fun hx => by
              cases hx with
              | head => exact hxa rfl
              | tail _ hx => exact h2 hx⟩)

theorem mem_dedupFirst (l : List String) (x : String) :
    x ∈ dedupFirst l ↔ x ∈ l := by
  simp [dedupFirst, mem_dedupFirstAux]

theorem nodup_dedupFirstAux (seen l : List String) :
    (dedupFirstAux seen l).Nodup := by
  induction l generalizing seen with
  | nil => simp [dedupFirstAux]
  | cons a as ih =>
    by_cases ha : a ∈ seen
    · rw [dedupFirstAux, if_pos ha]; exact ih seen
    · rw [dedupFirstAux, if_neg ha]
      refine List.nodup_cons.2 ⟨fun hmem => ?_, ih (a :: seen)⟩
      rw [mem_dedupFirstAux] at hmem
      exact hmem.2 (.head _)

theorem nodup_dedupFirst (l : List String) : (dedupFirst l).Nodup :=
  nodup_dedupFirstAux [] l

theorem length_dedupFirstAux (seen l : List String) :
    (dedupFirstAux seen l).length ≤ l.length := by
  induction l generalizing seen with
  | nil => simp [dedupFirstAux]
  | cons a as ih =>
    by_cases ha : a ∈ seen
    · rw [dedupFirstAux, if_pos ha]
      exact Nat.le_succ_of_le (ih seen)
    · rw [dedupFirstAux, if_neg ha]
      simpa using ih (a :: seen)

theorem length_dedupFirst (l : List String) : (dedupFirst l).length ≤ l.length :=
  length_dedupFirstAux [] l

theorem idxOf_lt_length (l : List String) (a : String) (h : a ∈ l) :
    idxOf l a < l.length := by
  induction l with
  | nil => simp at h
  | cons x xs ih =>
    by_cases hx : x = a
    · simp [idxOf, hx]
    · rcases h with _ | ⟨_, h⟩
      · exact absurd rfl hx
      · simpa [idxOf, hx] using ih h

theorem idxOf_append_left (l l' : List String) (a : String) (h : a ∈ l) :
    idxOf (l ++ l') a = idxOf l a := by
  induction l with
  | nil => simp at h
  | cons x xs ih =>
    by_cases hx : x = a
    · simp [idxOf, hx]
    · rcases h with _ | ⟨_, h⟩
      · exact absurd rfl hx
      · simp [idxOf, hx, ih h]

theorem idxOf_append_self (l : List String) (a : String) (h : a ∉ l) :
    idxOf (l ++ [a]) a = l.length := by
  induction l with
  | nil => simp [idxOf]
  | cons x xs ih =>
    have hx : x ≠ a := fun hxa => h (hxa ▸ .head _)
    simp only [List.cons_append, idxOf, if_neg hx]
    rw [show xs.append [a] = xs ++ [a] from rfl, ih (fun hm => h (.tail _ hm))]
    simp

theorem alookup_foldl_init {β : Type} (v : β) :
    ∀ (xs : List String) (acc : List (String × β)) (t : String),
    alookup (xs.foldl (fun m t => if (alookup m t).isSome then m else m ++ [(t, v)]) acc) t =
      match alookup acc t with
      | some w => some w
      | none => if t ∈ xs then some v else none := by
  intro xs
  induction xs with
  | nil =>
    intro acc t
    cases h : alookup acc t <;> simp [h]
  | cons x xs ih =>
    intro acc t
    simp only [List.foldl_cons]
    rw [ih]
    cases hacc : alookup acc x with
    | some w =>
      simp only [hacc, Option.isSome_some, if_true]
      cases hat : alookup acc t with
      | some w' => simp
      | none =>
        by_cases htx : t = x
        · subst htx; rw [hat] at hacc; cases hacc
        · simp [List.mem_cons, htx]
    | none =>
      simp only [hacc, Option.isSome_none, Bool.false_eq_true, if_false]
      rw [alookup_append]
      cases hat : alookup acc t with
      | some w' => simp
      | none =>
        by_cases htx : t = x
        · subst htx; simp [alookup]
        · simp [alookup, Ne.symm htx, htx, List.mem_cons]

theorem alookup_initResults {β : Type} (texts : List String) (v : β) (t : String) :
    alookup (initResults texts v) t = if t ∈ texts then some v else none := by
  rw [initResults, alookup_foldl_init]
  simp [alookup]

theorem keys_foldl_init_nodup {β : Type} (v : β) :
    ∀ (xs : List String) (acc : List (String × β)),
    ((acc.map (fun p => p.1)).Nodup) →
    (((xs.foldl (fun m t => if (alookup m t).isSome then m else m ++ [(t, v)]) acc).map
      (fun p => p.1)).Nodup) := by
  intro xs
  induction xs with
  | nil => intro acc h; exact h
  | cons x xs ih =>
    intro acc h
    simp only [List.foldl_cons]
    by_cases hacc : (alookup acc x).isSome
    · rw [if_pos hacc]; exact ih acc h
    · rw [if_neg hacc]
      refine ih _ ?_
      rw [List.map_append]
      refine List.Nodup.append h (by simp) ?_
      intro a ha hb
      simp at hb
      subst hb
      rw [← alookup_isSome_iff_mem_keys] at ha
      exact hacc ha

theorem initResults_keys_nodup {β : Type} (texts : List String) (v : β) :
    ((initResults texts v).map (fun p => p.1)).Nodup :=
  keys_foldl_init_nodup v texts [] (by simp)

theorem initResults_mem_keys {β : Type} (texts : List String) (v : β) (t : String) :
    t ∈ (initResults texts v).map (fun p => p.1) ↔ t ∈ texts := by
  rw [← alookup_isSome_iff_mem_keys, alookup_initResults]
  by_cases h : t ∈ texts <;> simp [h]

/-! ### Lemmas about the registry: lookups and the dependency closure -/

theorem lookupStage_mem (reg : Registry) (n : String) (st : StageInfo)
    (h : lookupStage reg n = some st) : st ∈ reg ∧ st.name = n := by
  induction reg with
  | nil => cases h
  | cons s rest ih =>
    by_cases hs : s.name = n
    · rw [lookupStage, if_pos hs] at h
      cases h
      exact ⟨.head _, hs⟩
    · rw [lookupStage, if_neg hs] at h
      obtain ⟨h1, h2⟩ := ih h
      exact ⟨.tail _ h1, h2⟩

theorem lookupStage_isSome_iff (reg : Registry) (n : String) :
    (lookupStage reg n).isSome ↔ n ∈ registeredNames reg := by
  induction reg with
  | nil => simp [lookupStage, registeredNames]
  | cons s rest ih =>
    by_cases hs : s.name = n
    · simp [lookupStage, hs, registeredNames]
    · simp [lookupStage, hs, registeredNames, ih, Ne.symm hs]

theorem addDeps_ok_shape (reg : Registry) (stage : String) :
    ∀ (ds inc proc inc' proc' : List String),
    addDeps reg stage ds inc proc = .ok (inc', proc') →
    ∃ extra : List String,
      inc' = inc ++ extra ∧ proc' = extra.reverse ++ proc ∧ extra.Nodup ∧
      (∀ x ∈ extra, x ∉ inc) ∧ (∀ x ∈ extra, (lookupStage reg x).isSome) ∧
      (∀ x ∈ extra, x ∈ ds) := by
  intro ds
  induction ds with
  | nil =>
    intro inc proc inc' proc' h
    rw [addDeps] at h
    cases h
    exact ⟨[], by simp⟩
  | cons d ds ih =>
    intro inc proc inc' proc' h
    rw [addDeps] at h
    by_cases hreg : (lookupStage reg d).isSome
    · rw [if_pos hreg] at h
      by_cases hd : d ∈ inc
      · rw [if_pos hd] at h
        obtain ⟨extra, h1, h2, h3, h4, h5, h6⟩ := ih _ _ _ _ h
        exact ⟨extra, h1, h2, h3, h4, h5, fun x hx => .tail _ (h6 x hx)⟩
      · rw [if_neg hd] at h
        obtain ⟨extra, h1, h2, h3, h4, h5, h6⟩ := ih _ _ _ _ h
        refine ⟨d :: extra, ?_, ?_, ?_, ?_, ?_, ?_⟩
        · rw [h1]; simp
        · rw [h2]; simp
        · refine List.nodup_cons.2 ⟨fun hmem => ?_, h3⟩
          exact (h4 d hmem) (by simp)
        · intro x hx
          cases hx with
          | head => exact hd
          | tail _ hx => intro hxin; exact (h4 x hx) (by simp [hxin])
        · intro x hx
          cases hx with
          | head => exact hreg
          | tail _ hx => exact h5 x hx
        · intro x hx
          cases hx with
          | head => exact .head _
          | tail _ hx => exact .tail _ (h6 x hx)
    · rw [if_neg hreg] at h
      cases h

theorem addDeps_ok_of_registered (reg : Registry) (stage : String) :
    ∀ (ds inc proc : List String),
    (∀ d ∈ ds, (lookupStage reg d).isSome) →
    ∃ out, addDeps reg stage ds inc proc = .ok out := by
  intro ds
  induction ds with
  | nil => intro inc proc _; exact ⟨(inc, proc), rfl⟩
  | cons d ds ih =>
    intro inc proc h
    have hd := h d (.head _)
    have hds : ∀ d' ∈ ds, (lookupStage reg d').isSome := fun d' hd' => h d' (.tail _ hd')
    by_cases hmem : d ∈ inc
    · obtain ⟨out, hout⟩ := ih inc proc hds
      exact ⟨out, by rw [addDeps, if_pos hd, if_pos hmem]; exact hout⟩
    · obtain ⟨out, hout⟩ := ih (inc ++ [d]) (d :: proc) hds
      exact ⟨out, by rw [addDeps, if_pos hd, if_neg hmem]; exact hout⟩

theorem addDeps_deps_in (reg : Registry) (stage : String) :
    ∀ (ds inc proc inc' proc' : List String),
    addDeps reg stage ds inc proc = .ok (inc', proc') →
    ∀ d ∈ ds, d ∈ inc' := by
  intro ds
  induction ds with
  | nil => intro inc proc inc' proc' _ d hd; cases hd
  | cons d0 ds ih =>
    intro inc proc inc' proc' h d hd
    rw [addDeps] at h
    by_cases hreg : (lookupStage reg d0).isSome
    · rw [if_pos hreg] at h
      by_cases hmem : d0 ∈ inc
      · rw [if_pos hmem] at h
        cases hd with
        | head =>
          obtain ⟨extra, he1, _, _, _, _, _⟩ :=
            addDeps_ok_shape reg stage ds inc proc inc' proc' h
          rw [he1]
          exact List.mem_append_left _ hmem
        | tail _ hd => exact ih _ _ _ _ h d hd
      · rw [if_neg hmem] at h
        cases hd with
        | head =>
          obtain ⟨extra, he1, _, _, _, _, _⟩ :=
            addDeps_ok_shape reg stage ds _ _ inc' proc' h
          rw [he1]
          exact List.mem_append_left _ (List.mem_append_right _ (.head _))
        | tail _ hd => exact ih _ _ _ _ h d hd
    · rw [if_neg hreg] at h
      cases h

theorem closureLoop_mono (reg : Registry) :
    ∀ (fuel : Nat) (inc proc out : List String),
    closureLoop reg fuel inc proc = .ok out → ∀ x ∈ inc, x ∈ out := by
  intro fuel
  induction fuel with
  | zero => intro inc proc out h; cases h
  | succ fuel ih =>
    intro inc proc out h
    match proc with
    | [] =>
      rw [closureLoop] at h
      cases h
      exact fun x hx => hx
    | a :: rest =>
      rw [closureLoop] at h
      cases hst : lookupStage reg a with
      | none => simp only [hst] at h; cases h
      | some st =>
        simp only [hst] at h
        cases had : addDeps reg a st.deps inc rest with
        | error e => simp only [had] at h; cases h
        | ok pr =>
          obtain ⟨inc', proc'⟩ := pr
          simp only [had] at h
          obtain ⟨extra, he1, _, _, _, _, _⟩ :=
            addDeps_ok_shape reg a st.deps inc rest inc' proc' had
          intro x hx
          exact ih inc' proc' out h x (he1 ▸ List.mem_append_left _ hx)

theorem closureLoop_registered (reg : Registry) :
    ∀ (fuel : Nat) (inc proc out : List String),
    closureLoop reg fuel inc proc = .ok out →
    (∀ x ∈ inc, (lookupStage reg x).isSome) →
    ∀ x ∈ out, (lookupStage reg x).isSome := by
  intro fuel
  induction fuel with
  | zero => intro inc proc out h; cases h
  | succ fuel ih =>
    intro inc proc out h hreg
    match proc with
    | [] =>
      rw [closureLoop] at h
      cases h
      exact hreg
    | a :: rest =>
      rw [closureLoop] at h
      cases hst : lookupStage reg a with
      | none => simp only [hst] at h; cases h
      | some st =>
        simp only [hst] at h
        cases had : addDeps reg a st.deps inc rest with
        | error e => simp only [had] at h; cases h
        | ok pr =>
          obtain ⟨inc', proc'⟩ := pr
          simp only [had] at h
          obtain ⟨extra, he1, _, _, _, h5, _⟩ :=
            addDeps_ok_shape reg a st.deps inc rest inc' proc' had
          refine ih inc' proc' out h ?_
          intro x hx
          rw [he1] at hx
          rcases List.mem_append.1 hx with hx | hx
          · exact hreg x hx
          · exact h5 x hx

theorem closureLoop_nodup (reg : Registry) :
    ∀ (fuel : Nat) (inc proc out : List String),
    closureLoop reg fuel inc proc = .ok out → inc.Nodup → out.Nodup := by
  intro fuel
  induction fuel with
  | zero => intro inc proc out h; cases h
  | succ fuel ih =>
    intro inc proc out h hnd
    match proc with
    | [] =>
      rw [closureLoop] at h
      cases h
      exact hnd
    | a :: rest =>
      rw [closureLoop] at h
      cases hst : lookupStage reg a with
      | none => simp only [hst] at h; cases h
      | some st =>
        simp only [hst] at h
        cases had : addDeps reg a st.deps inc rest with
        | error e => simp only [had] at h; cases h
        | ok pr =>
          obtain ⟨inc', proc'⟩ := pr
          simp only [had] at h
          obtain ⟨extra, he1, _, h3, h4, _, _⟩ :=
            addDeps_ok_shape reg a st.deps inc rest inc' proc' had
          refine ih inc' proc' out h ?_
          rw [he1]
          exact List.Nodup.append hnd h3 (fun x hx hx' => (h4 x hx') hx)

theorem closureLoop_closed (reg : Registry) :
    ∀ (fuel : Nat) (inc proc out : List String),
    closureLoop reg fuel inc proc = .ok out →
    ClosedPending reg inc proc →
    ∀ n ∈ out, ∀ st, lookupStage reg n = some st → ∀ d ∈ st.deps, d ∈ out := by
  intro fuel
  induction fuel with
  | zero => intro inc proc out h; cases h
  | succ fuel ih =>
    intro inc proc out h hcp
    match proc with
    | [] =>
      rw [closureLoop] at h
      cases h
      intro n hn st hst d hd
      exact hcp n hn (by simp) st hst d hd
    | a :: rest =>
      rw [closureLoop] at h
      cases hst : lookupStage reg a with
      | none => simp only [hst] at h; cases h
      | some st =>
        simp only [hst] at h
        cases had : addDeps reg a st.deps inc rest with
        | error e => simp only [had] at h; cases h
        | ok pr =>
          obtain ⟨inc', proc'⟩ := pr
          simp only [had] at h
          obtain ⟨extra, he1, he2, _, _, _, _⟩ :=
            addDeps_ok_shape reg a st.deps inc rest inc' proc' had
          refine ih inc' proc' out h ?_
          intro n hn hnp st' hst' d hd
          rw [he1] at hn
          rcases List.mem_append.1 hn with hn | hn
      
          · by_cases hna : n = a
            · subst hna
              rw [hst] at hst'
              cases hst'
              exact addDeps_deps_in reg n st.deps inc rest inc' proc' had d hd
            · have hnotin : n ∉ (a :: rest) := by
                intro hmem
                cases hmem with
                | head => exact hna rfl
                | tail _ hmem =>
                  exact hnp (he2 ▸ List.mem_append_right _ hmem)
              have := hcp n hn hnotin st' hst' d hd
              rw [he1]
              exact List.mem_append_left _ this
          · exfalso
            apply hnp
            rw [he2]
            exact List.mem_append_left _ (List.mem_reverse.2 hn)

theorem closureLoop_minimal (reg : Registry) :
    ∀ (fuel : Nat) (inc proc out : List String) (S : List String),
    closureLoop reg fuel inc proc = .ok out →
    (∀ n ∈ S, ∀ st, lookupStage reg n = some st → ∀ d ∈ st.deps, d ∈ S) →
    (∀ x ∈ inc, x ∈ S) → (∀ x ∈ proc, x ∈ inc) →
    ∀ x ∈ out, x ∈ S := by
  intro fuel
  induction fuel with
  | zero => intro inc proc out S h; cases h
  | succ fuel ih =>
    intro inc proc out S h hS hincS hproc
    match proc with
    | [] =>
      rw [closureLoop] at h
      cases h
      exact hincS
    | a :: rest =>
      rw [closureLoop] at h
      cases hst : lookupStage reg a with
      | none => simp only [hst] at h; cases h
      | some st =>
        simp only [hst] at h
        cases had : addDeps reg a st.deps inc rest with
        | error e => simp only [had] at h; cases h
        | ok pr =>
          obtain ⟨inc', proc'⟩ := pr
          simp only [had] at h
          obtain ⟨extra, he1, he2, _, _, _, h6⟩ :=
            addDeps_ok_shape reg a st.deps inc rest inc' proc' had
          have haS : a ∈ S := hincS a (hproc a (.head _))
          have hdepsS : ∀ d ∈ st.deps, d ∈ S := hS a haS st hst
          refine ih inc' proc' out S h hS ?_ ?_
          · intro x hx
            rw [he1] at hx
            rcases List.mem_append.1 hx with hx | hx
            · exact hincS x hx
            · exact hdepsS x (h6 x hx)
          · intro x hx
            rw [he2] at hx
            rcases List.mem_append.1 hx with hx | hx
            · rw [he1]
              exact List.mem_append_right _ (List.mem_reverse.1 hx)
            · rw [he1]
              exact List.mem_append_left _ (hproc x (.tail _ hx))

theorem missingCount_append (reg : Registry) (inc extra : List String)
    (hnd : extra.Nodup) (hnotin : ∀ x ∈ extra, x ∉ inc)
    (hreg : ∀ x ∈ extra, x ∈ registeredNames reg) :
    missingCount reg (inc ++ extra) + extra.length = missingCount reg inc := by
  have hsub : extra.toFinset ⊆ (registeredNames reg).toFinset \ inc.toFinset := by
    intro x hx
    rw [List.mem_toFinset] at hx
    rw [Finset.mem_sdiff, List.mem_toFinset, List.mem_toFinset]
    exact ⟨hreg x hx, hnotin x hx⟩
  have hcardE : extra.toFinset.card = extra.length := List.toFinset_card_of_nodup hnd
  have h1 : missingCount reg (inc ++ extra) =
      missingCount reg inc - extra.length := by
    unfold missingCount
    rw [List.toFinset_append, ← Finset.sup_eq_union, ← sdiff_sdiff_left,
      Finset.card_sdiff hsub, hcardE]
  have h2 : extra.length ≤ missingCount reg inc := by
    calc extra.length = extra.toFinset.card := hcardE.symm
    _ ≤ _ := Finset.card_le_card hsub
  omega

theorem closureLoop_ok_of_fuel (reg : Registry) :
    ∀ (fuel : Nat) (inc proc : List String),
    (∀ x ∈ inc, (lookupStage reg x).isSome) →
    (∀ st ∈ reg, ∀ d ∈ st.deps, (lookupStage reg d).isSome) →
    (∀ x ∈ proc, x ∈ inc) →
    missingCount reg inc + proc.length < fuel →
    ∃ out, closureLoop reg fuel inc proc = .ok out := by
  intro fuel
  induction fuel with
  | zero => intro inc proc _ _ _ hfuel; omega
  | succ fuel ih =>
    intro inc proc hreg hclosed hproc hfuel
    match proc with
    | [] => exact ⟨inc, by rw [closureLoop]⟩
    | a :: rest =>
      have ha : (lookupStage reg a).isSome := hreg a (hproc a (.head _))
      obtain ⟨st, hst⟩ := Option.isSome_iff_exists.1 ha
      have hstmem := lookupStage_mem reg a st hst
      have hds : ∀ d ∈ st.deps, (lookupStage reg d).isSome :=
        fun d hd => hclosed st hstmem.1 d hd
      obtain ⟨pr, had⟩ := addDeps_ok_of_registered reg a st.deps inc rest hds
      obtain ⟨inc', proc'⟩ := pr
      obtain ⟨extra, he1, he2, he3, he4, he5, _⟩ :=
        addDeps_ok_shape reg a st.deps inc rest inc' proc' had
      have hregextra : ∀ x ∈ extra, x ∈ registeredNames reg :=
        fun x hx => (lookupStage_isSome_iff reg x).1 (he5 x hx)
      have hmc : missingCount reg inc' + extra.length = missingCount reg inc := by
        rw [he1]
        exact missingCount_append reg inc extra he3 he4 hregextra
      have hlen : proc'.length = extra.length + rest.length := by
        rw [he2]; simp
      obtain ⟨out, hout⟩ := ih inc' proc'
        (by
          intro x hx
          rw [he1] at hx
          rcases List.mem_append.1 hx with hx | hx
          · exact hreg x hx
          · exact he5 x hx)
        hclosed
        (by
          intro x hx
          rw [he2] at hx
          rcases List.mem_append.1 hx with hx | hx
          · rw [he1]
            exact List.mem_append_right _ (List.mem_reverse.1 hx)
          · rw [he1]
            exact List.mem_append_left _ (hproc x (.tail _ hx)))
        (by
          simp only [List.length_cons] at hfuel
          omega)
      refine ⟨out, ?_⟩
      rw [closureLoop]
      simp only [hst, had]
      exact hout

/-! ### Lemmas about Kahn's algorithm -/

theorem mem_remainingNodes (graph : List (String × List String)) (result : List String)
    (n : String) :
    n ∈ remainingNodes graph result ↔ n ∈ graphKeys graph ∧ n ∉ result := by
  simp [remainingNodes, List.mem_filter]

theorem remainingNodes_eq_nil_iff (graph : List (String × List String))
    (result : List String) :
    remainingNodes graph result = [] ↔ ∀ k ∈ graphKeys graph, k ∈ result := by
  rw [remainingNodes, List.filter_eq_nil_iff]
  constructor
  · intro h k hk
    by_contra hcon
    exact h k hk (by simp [hcon])
  · intro h k hk
    simp [h k hk]

theorem lookupDeps_isSome_iff (graph : List (String × List String)) (n : String) :
    (lookupDeps graph n).isSome ↔ n ∈ graphKeys graph :=
  alookup_isSome_iff_mem_keys graph n

theorem isReady_iff (graph : List (String × List String)) (result : List String)
    (n : String) :
    isReady graph result n = true ↔
      ∃ deps, lookupDeps graph n = some deps ∧ ∀ d ∈ deps, d ∈ result := by
  rw [isReady]
  cases h : lookupDeps graph n with
  | none => simp
  | some deps => simp [List.all_eq_true]

theorem KahnInv_nil (graph : List (String × List String)) : KahnInv graph [] := by
  refine ⟨List.nodup_nil, ?_, ?_⟩ <;> intro a ha <;> cases ha

theorem KahnInv_step (graph : List (String × List String)) (result : List String)
    (n : String) (hinv : KahnInv graph result) (hkey : n ∈ graphKeys graph)
    (hnot : n ∉ result)
    (hready : ∀ deps, lookupDeps graph n = some deps → ∀ d ∈ deps, d ∈ result) :
    KahnInv graph (result ++ [n]) := by
  obtain ⟨hnd, hmem, hord⟩ := hinv
  refine ⟨?_, ?_, ?_⟩
  · exact List.Nodup.append hnd (by simp) (by intro x hx hx'; simp at hx'; subst hx'; exact hnot hx)
  · intro a ha
    rcases List.mem_append.1 ha with ha | ha
    · exact hmem a ha
    · simp at ha; subst ha; exact hkey
  · intro a ha deps hdeps d hd
    rcases List.mem_append.1 ha with ha | ha
    · obtain ⟨hdin, hidx⟩ := hord a ha deps hdeps d hd
      refine ⟨List.mem_append_left _ hdin, ?_⟩
      rw [idxOf_append_left _ _ _ hdin, idxOf_append_left _ _ _ ha]
      exact hidx
    · simp at ha
      subst ha
      have hdin : d ∈ result := hready deps hdeps d hd
      refine ⟨List.mem_append_left _ hdin, ?_⟩
      rw [idxOf_append_left _ _ _ hdin, idxOf_append_self _ _ hnot]
      exact idxOf_lt_length result d hdin

theorem kahnRun_ok (graph : List (String × List String)) :
    ∀ (fuel : Nat) (result out : List String),
    kahnRun graph fuel result = .ok out → KahnInv graph result →
    KahnInv graph out ∧ (∀ k ∈ graphKeys graph, k ∈ out) ∧ (∀ x ∈ result, x ∈ out) ∧
      (∀ x ∈ out, x ∈ graphKeys graph ∨ x ∈ result) := by
  intro fuel
  induction fuel with
  | zero =>
    intro result out h hinv
    rw [kahnRun] at h
    by_cases hrem : remainingNodes graph result = []
    · rw [if_pos hrem] at h
      cases h
      exact ⟨hinv, (remainingNodes_eq_nil_iff graph result).1 hrem,
        fun x hx => hx, fun x hx => Or.inr hx⟩
    · rw [if_neg hrem] at h
      cases h
  | succ fuel ih =>
    intro result out h hinv
    rw [kahnRun] at h
    cases hfind : (remainingNodes graph result).find? (isReady graph result) with
    | none =>
      rw [hfind] at h
      by_cases hrem : remainingNodes graph result = []
      · rw [if_pos hrem] at h
        cases h
        exact ⟨hinv, (remainingNodes_eq_nil_iff graph result).1 hrem,
          fun x hx => hx, fun x hx => Or.inr hx⟩
      · rw [if_neg hrem] at h
        cases h
    | some n =>
      rw [hfind] at h
      have hn := List.mem_of_find?_eq_some hfind
      have hready := List.find?_some hfind
      rw [mem_remainingNodes] at hn
      have hinv' : KahnInv graph (result ++ [n]) := by
        refine KahnInv_step graph result n hinv hn.1 hn.2 ?_
        intro deps hdeps d hd
        obtain ⟨deps', hdeps', hall⟩ := (isReady_iff graph result n).1 hready
        rw [hdeps] at hdeps'
        cases hdeps'
        exact hall d hd
      obtain ⟨h1, h2, h3, h4⟩ := ih (result ++ [n]) out h hinv'
      refine ⟨h1, h2, fun x hx => h3 x (List.mem_append_left _ hx), ?_⟩
      intro x hx
      rcases h4 x hx with hx' | hx'
      · exact Or.inl hx'
      · rcases List.mem_append.1 hx' with hx'' | hx''
        · exact Or.inr hx''
        · simp at hx''; subst hx''; exact Or.inl hn.1

theorem kahnRun_error (graph : List (String × List String)) :
    ∀ (fuel : Nat) (result : List String) (e : RegistryError),
    kahnRun graph fuel result = .error e → KahnInv graph result →
    ∃ res, KahnInv graph res ∧ e = .cycle (remainingNodes graph res) ∧
      remainingNodes graph res ≠ [] ∧ (∀ x ∈ result, x ∈ res) := by
  intro fuel
  induction fuel with
  | zero =>
    intro result e h hinv
    rw [kahnRun] at h
    by_cases hrem : remainingNodes graph result = []
    · rw [if_pos hrem] at h; cases h
    · rw [if_neg hrem] at h
      cases h
      exact ⟨result, hinv, rfl, hrem, fun x hx => hx⟩
  | succ fuel ih =>
    intro result e h hinv
    rw [kahnRun] at h
    cases hfind : (remainingNodes graph result).find? (isReady graph result) with
    | none =>
      rw [hfind] at h
      by_cases hrem : remainingNodes graph result = []
      · rw [if_pos hrem] at h; cases h
      · rw [if_neg hrem] at h
        cases h
        exact ⟨result, hinv, rfl, hrem, fun x hx => hx⟩
    | some n =>
      rw [hfind] at h
      have hn := List.mem_of_find?_eq_some hfind
      have hready := List.find?_some hfind
      rw [mem_remainingNodes] at hn
      have hinv' : KahnInv graph (result ++ [n]) := by
        refine KahnInv_step graph result n hinv hn.1 hn.2 ?_
        intro deps hdeps d hd
        obtain ⟨deps', hdeps', hall⟩ := (isReady_iff graph result n).1 hready
        rw [hdeps] at hdeps'
        cases hdeps'
        exact hall d hd
      obtain ⟨res, h1, h2, h3, h4⟩ := ih (result ++ [n]) e h hinv'
      exact ⟨res, h1, h2, h3, fun x hx => h4 x (List.mem_append_left _ hx)⟩

theorem exists_ready (graph : List (String × List String)) (ord result : List String)
    (hgood : GoodOrderGraph graph ord)
    (hclosedG : ∀ n deps, lookupDeps graph n = some deps → ∀ d ∈ deps,
      d ∈ graphKeys graph)
    (hne : remainingNodes graph result ≠ []) :
    ∃ n ∈ remainingNodes graph result, isReady graph result n = true := by
  obtain ⟨-, -, hord⟩ := hgood
  have hnonempty : (remainingNodes graph result).toFinset.Nonempty := by
    rcases hrem : remainingNodes graph result with _ | ⟨x, xs⟩
    · exact absurd hrem hne
    · exact ⟨x, by simp⟩
  obtain ⟨m, hm, hmin⟩ :=
    (remainingNodes graph result).toFinset.exists_min_image (fun n => idxOf ord n) hnonempty
  rw [List.mem_toFinset] at hm
  refine ⟨m, hm, ?_⟩
  have hmkeys := ((mem_remainingNodes graph result m).1 hm).1
  obtain ⟨deps, hdeps⟩ := Option.isSome_iff_exists.1 ((lookupDeps_isSome_iff graph m).2 hmkeys)
  rw [isReady_iff]
  refine ⟨deps, hdeps, ?_⟩
  intro d hd
  by_contra hdnot
  have hdrem : d ∈ remainingNodes graph result :=
    (mem_remainingNodes graph result d).2 ⟨hclosedG m deps hdeps d hd, hdnot⟩
  have h1 : idxOf ord m ≤ idxOf ord d := hmin d (List.mem_toFinset.2 hdrem)
  have h2 : idxOf ord d < idxOf ord m := hord m deps hdeps d hd
  omega

theorem filter_ne_length (a : String) :
    ∀ (l : List String), l.Nodup → a ∈ l →
    (l.filter (fun x => decide (x ≠ a))).length + 1 = l.length := by
  intro l
  induction l with
  | nil => intro _ h; cases h
  | cons x xs ih =>
    intro hnd hmem
    by_cases hxa : x = a
    · subst hxa
      have hnotin : x ∉ xs := (List.nodup_cons.1 hnd).1
      have : xs.filter (fun y => decide (y ≠ x)) = xs :=
        List.filter_eq_self.mpr (fun y hy => by
          simp only [decide_eq_true_eq]
          intro hyx
          exact hnotin (hyx ▸ hy))
      simp [this]
      intro a ha hax
      exact hnotin (hax ▸ ha)
    · have : a ∈ xs := by
        cases hmem with
        | head => exact absurd rfl hxa
        | tail _ h => exact h
      have ihr := ih (List.nodup_cons.1 hnd).2 this
      simp only [List.filter_cons, decide_eq_true_eq]
      rw [if_pos (by simpa using hxa)]
      simp only [List.length_cons]
      omega

theorem remainingNodes_append_length (graph : List (String × List String))
    (result : List String) (n : String) (hnd : (graphKeys graph).Nodup)
    (hn : n ∈ remainingNodes graph result) :
    (remainingNodes graph (result ++ [n])).length + 1 =
      (remainingNodes graph result).length := by
  have heq : remainingNodes graph (result ++ [n]) =
      (remainingNodes graph result).filter (fun x => decide (x ≠ n)) := by
    rw [remainingNodes, remainingNodes, List.filter_filter]
    refine List.filter_congr ?_
    intro x _
    simp [List.mem_append, not_or, and_comm]
  rw [heq]
  exact filter_ne_length n (remainingNodes graph result)
    (List.Nodup.filter _ hnd) hn

theorem kahnRun_ok_of_acyclic (graph : List (String × List String))
    (hnd : (graphKeys graph).Nodup)
    (hclosedG : ∀ n deps, lookupDeps graph n = some deps → ∀ d ∈ deps,
      d ∈ graphKeys graph)
    (ord : List String) (hgood : GoodOrderGraph graph ord) :
    ∀ (fuel : Nat) (result : List String),
    KahnInv graph result → (remainingNodes graph result).length ≤ fuel →
    ∃ out, kahnRun graph fuel result = .ok out := by
  intro fuel
  induction fuel with
  | zero =>
    intro result _ hlen
    have hrem : remainingNodes graph result = [] := by
      cases h : remainingNodes graph result with
      | nil => rfl
      | cons x xs => rw [h] at hlen; simp at hlen
    exact ⟨result, by rw [kahnRun, if_pos hrem]⟩
  | succ fuel ih =>
    intro result hinv hlen
    by_cases hrem : remainingNodes graph result = []
    · refine ⟨result, ?_⟩
      rw [kahnRun, hrem]
      simp [List.find?]
    · obtain ⟨n, hn, hready⟩ := exists_ready graph ord result hgood hclosedG hrem
      have hfind : ((remainingNodes graph result).find? (isReady graph result)).isSome :=
        List.find?_isSome.mpr ⟨n, hn, hready⟩
      obtain ⟨n', hfind'⟩ := Option.isSome_iff_exists.1 hfind
      have hn' := List.mem_of_find?_eq_some hfind'
      have hready' := List.find?_some hfind'
      rw [mem_remainingNodes] at hn'
      have hinv' : KahnInv graph (result ++ [n']) := by
        refine KahnInv_step graph result n' hinv hn'.1 hn'.2 ?_
        intro deps hdeps d hd
        obtain ⟨deps', hdeps', hall⟩ := (isReady_iff graph result n').1 hready'
        rw [hdeps] at hdeps'
        cases hdeps'
        exact hall d hd
      have hlen' : (remainingNodes graph (result ++ [n'])).length ≤ fuel := by
        have := remainingNodes_append_length graph result n' hnd
          ((mem_remainingNodes graph result n').2 hn')
        omega
      obtain ⟨out, hout⟩ := ih (result ++ [n']) hinv' hlen'
      refine ⟨out, ?_⟩
      rw [kahnRun, hfind']
      exact hout

/-! ### Lemmas about the induced dependency subgraph -/

theorem graphKeys_buildGraph (reg : Registry) :
    ∀ (inc : List String), (∀ n ∈ inc, (lookupStage reg n).isSome) →
    graphKeys (buildGraph reg inc) = inc := by
  intro inc hreg
  have haux : ∀ (l : List String), (∀ n ∈ l, (lookupStage reg n).isSome) →
      graphKeys (l.filterMap (fun n =>
        match lookupStage reg n with
        | none => none
        | some st => some (n, st.deps.filter (fun d => decide (d ∈ inc))))) = l := by
    intro l
    induction l with
    | nil => intro _; rfl
    | cons m rest ih =>
      intro hl
      obtain ⟨st, hst⟩ := Option.isSome_iff_exists.1 (hl m (.head _))
      simp only [List.filterMap_cons, hst]
      rw [graphKeys, List.map_cons]
      have := ih (fun n hn => hl n (.tail _ hn))
      rw [graphKeys] at this
      rw [this]
  exact haux inc hreg

theorem buildGraph_lookup (reg : Registry) (inc : List String) :
    ∀ (l : List String) (n : String) (st : StageInfo), n ∈ l →
    lookupStage reg n = some st →
    alookup (l.filterMap (fun m =>
      match lookupStage reg m with
      | none => none
      | some stm => some (m, stm.deps.filter (fun d => decide (d ∈ inc))))) n =
      some (st.deps.filter (fun d => decide (d ∈ inc))) := by
  intro l
  induction l with
  | nil => intro n st h; cases h
  | cons m rest ih =>
    intro n st hn hst
    cases hm : lookupStage reg m with
    | none =>
      simp only [List.filterMap_cons, hm]
      cases hn with
      | head => rw [hst] at hm; cases hm
      | tail _ hn => exact ih n st hn hst
    | some stm =>
      simp only [List.filterMap_cons, hm]
      by_cases hmn : m = n
      · subst hmn
        rw [hst] at hm
        cases hm
        rw [alookup, if_pos rfl]
      · rw [alookup, if_neg hmn]
        cases hn with
        | head => exact absurd rfl hmn
        | tail _ hn => exact ih n st hn hst

theorem buildGraph_lookup_inv (reg : Registry) (inc : List String) :
    ∀ (l : List String) (n : String) (deps : List String),
    alookup (l.filterMap (fun m =>
      match lookupStage reg m with
      | none => none
      | some stm => some (m, stm.deps.filter (fun d => decide (d ∈ inc))))) n =
      some deps →
    ∃ st, lookupStage reg n = some st ∧
      deps = st.deps.filter (fun d => decide (d ∈ inc)) := by
  intro l
  induction l with
  | nil => intro n deps h; cases h
  | cons m rest ih =>
    intro n deps h
    cases hm : lookupStage reg m with
    | none =>
      rw [List.filterMap_cons, hm] at h
      exact ih n deps h
    | some stm =>
      rw [List.filterMap_cons, hm] at h
      by_cases hmn : m = n
      · subst hmn
        rw [alookup, if_pos rfl] at h
        cases h
        exact ⟨stm, hm, rfl⟩
      · rw [alookup, if_neg hmn] at h
        exact ih n deps h

theorem lookupDeps_buildGraph (reg : Registry) (inc : List String) (n : String)
    (st : StageInfo) (hn : n ∈ inc) (hst : lookupStage reg n = some st) :
    lookupDeps (buildGraph reg inc) n =
      some (st.deps.filter (fun d => decide (d ∈ inc))) :=
  buildGraph_lookup reg inc inc n st hn hst

theorem lookupDeps_buildGraph_inv (reg : Registry) (inc : List String) (n : String)
    (deps : List String) (h : lookupDeps (buildGraph reg inc) n = some deps) :
    ∃ st, lookupStage reg n = some st ∧
      deps = st.deps.filter (fun d => decide (d ∈ inc)) :=
  buildGraph_lookup_inv reg inc inc n deps h

/-- Lifting a node-after-direct-dependencies order to transitive
dependencies. -/
theorem depends_lt (reg : Registry) (out : List String)
    (hdirect : ∀ a ∈ out, ∀ st, lookupStage reg a = some st → ∀ d ∈ st.deps,
      d ∈ out ∧ idxOf out d < idxOf out a) :
    ∀ a b, a ∈ out → Depends reg a b → b ∈ out ∧ idxOf out b < idxOf out a := by
  intro a b ha hdep
  induction hdep with
  | edge a' b' st hst hb => exact hdirect a' ha st hst b' hb
  | tail a' b' c st hst hc _ ih =>
    obtain ⟨hcin, hclt⟩ := hdirect a' ha st hst c hc
    obtain ⟨hbin, hblt⟩ := ih hcin
    exact ⟨hbin, Nat.lt_trans hblt hclt⟩

/-- C1: for a registry with duplicate-free stage names whose dependencies
are all registered and whose dependency graph is acyclic (witnessed by some
topological order of all stages), and for any requested list of registered
stage names (or none, meaning all registered stages), `resolve_order`
succeeds and returns a duplicate-free list that contains the requested
stages, is closed under dependencies, is contained in every
dependency-closed superset of the request (so it is exactly the requested
set closed under transitive dependencies), and places every stage after
every stage it transitively depends on. -/
theorem resolve_order_topological_validity (reg : Registry)
    (stage_names : Option (List String))
    (hdeps : ∀ st ∈ reg, ∀ d ∈ st.deps, (lookupStage reg d).isSome)
    (hreq : ∀ n ∈ namesOf reg stage_names, (lookupStage reg n).isSome)
    (hacyc : ∃ ord, GoodOrderReg reg ord) :
    ∃ order, resolve_order reg stage_names = .ok order ∧
      order.Nodup ∧
      (∀ n ∈ namesOf reg stage_names, n ∈ order) ∧
      (∀ n ∈ order, ∀ st, lookupStage reg n = some st → ∀ d ∈ st.deps, d ∈ order) ∧
      (∀ S : List String, (∀ n ∈ namesOf reg stage_names, n ∈ S) →
        (∀ n ∈ S, ∀ st, lookupStage reg n = some st → ∀ d ∈ st.deps, d ∈ S) →
        ∀ n ∈ order, n ∈ S) ∧
      (∀ a b, a ∈ order → Depends reg a b →
        b ∈ order ∧ idxOf order b < idxOf order a) := by
  obtain ⟨ord, hordnd, hordmem, hordlt⟩ := hacyc
  have hfind : (namesOf reg stage_names).find?
      (fun n => (lookupStage reg n).isNone) = none := by
    rw [List.find?_eq_none]
    intro n hn hcon
    have hsome := hreq n hn
    rw [Option.isNone_iff_eq_none] at hcon
    rw [hcon] at hsome
    simp at hsome
  have hstartreg : ∀ x ∈ dedupFirst (namesOf reg stage_names),
      (lookupStage reg x).isSome :=
    fun x hx => hreq x ((mem_dedupFirst _ x).1 hx)
  have hfuel : missingCount reg (dedupFirst (namesOf reg stage_names)) +
      (dedupFirst (namesOf reg stage_names)).length <
      reg.length + (namesOf reg stage_names).length + 1 := by
    have h1 : missingCount reg (dedupFirst (namesOf reg stage_names)) ≤ reg.length := by
      calc missingCount reg _ ≤ (registeredNames reg).toFinset.card :=
            Finset.card_le_card (Finset.sdiff_subset)
      _ ≤ (registeredNames reg).length := List.toFinset_card_le _
      _ = reg.length := by rw [registeredNames, List.length_map]
    have h2 := length_dedupFirst (namesOf reg stage_names)
    omega
  obtain ⟨inc, hinc⟩ := closureLoop_ok_of_fuel reg
    (reg.length + (namesOf reg stage_names).length + 1)
    (dedupFirst (namesOf reg stage_names)) (dedupFirst (namesOf reg stage_names))
    hstartreg hdeps (fun x hx => hx) hfuel
  have hincreg : ∀ x ∈ inc, (lookupStage reg x).isSome :=
    closureLoop_registered reg _ _ _ inc hinc hstartreg
  have hincnd : inc.Nodup :=
    closureLoop_nodup reg _ _ _ inc hinc (nodup_dedupFirst _)
  have hincclosed : ∀ n ∈ inc, ∀ st, lookupStage reg n = some st →
      ∀ d ∈ st.deps, d ∈ inc :=
    closureLoop_closed reg _ _ _ inc hinc (fun n hn hnot => absurd hn hnot)
  have hnamesinc : ∀ n ∈ namesOf reg stage_names, n ∈ inc :=
    fun n hn => closureLoop_mono reg _ _ _ inc hinc n ((mem_dedupFirst _ n).2 hn)
  have hkeys : graphKeys (buildGraph reg inc) = inc :=
    graphKeys_buildGraph reg inc hincreg
  have hGnd : (graphKeys (buildGraph reg inc)).Nodup := by rw [hkeys]; exact hincnd
  have hGclosed : ∀ n deps, lookupDeps (buildGraph reg inc) n = some deps →
      ∀ d ∈ deps, d ∈ graphKeys (buildGraph reg inc) := by
    intro n deps hnd d hd
    obtain ⟨st, hst, hdeps'⟩ := lookupDeps_buildGraph_inv reg inc n deps hnd
    rw [hdeps'] at hd
    rw [hkeys]
    have := (List.mem_filter.1 hd).2
    simpa using this
  have hGood : GoodOrderGraph (buildGraph reg inc) ord := by
    refine ⟨hordnd, ?_, ?_⟩
    · intro k hk
      rw [hkeys] at hk
      obtain ⟨st, hst⟩ := Option.isSome_iff_exists.1 (hincreg k hk)
      obtain ⟨hstmem, hstname⟩ := lookupStage_mem reg k st hst
      exact hstname ▸ hordmem st hstmem
    · intro n deps hdeps' d hd
      obtain ⟨st, hst, hdeq⟩ := lookupDeps_buildGraph_inv reg inc n deps hdeps'
      rw [hdeq] at hd
      have hdmem := (List.mem_filter.1 hd).1
      obtain ⟨hstmem, hstname⟩ := lookupStage_mem reg n st hst
      exact hstname ▸ hordlt st hstmem d hdmem
  have hreminit : remainingNodes (buildGraph reg inc) [] =
      graphKeys (buildGraph reg inc) :=
    List.filter_eq_self.mpr (fun a _ => by simp)
  obtain ⟨out, hkout⟩ := kahnRun_ok_of_acyclic (buildGraph reg inc) hGnd hGclosed
    ord hGood (graphKeys (buildGraph reg inc)).length [] (KahnInv_nil _)
    (by rw [hreminit])
  obtain ⟨hinvout, hkeysub, -, houtsub⟩ :=
    kahnRun_ok (buildGraph reg inc) _ [] out hkout (KahnInv_nil _)
  have houtinc : ∀ x ∈ out, x ∈ inc := by
    intro x hx
    rcases houtsub x hx with hx' | hx'
    · rw [hkeys] at hx'; exact hx'
    · cases hx'
  have hincout : ∀ x ∈ inc, x ∈ out := by
    intro x hx
    refine hkeysub x ?_
    rw [hkeys]
    exact hx
  have hdirect : ∀ a ∈ out, ∀ st, lookupStage reg a = some st → ∀ d ∈ st.deps,
      d ∈ out ∧ idxOf out d < idxOf out a := by
    intro a ha st hst d hd
    have hainc : a ∈ inc := houtinc a ha
    have hdinc : d ∈ inc := hincclosed a hainc st hst d hd
    have hlk := lookupDeps_buildGraph reg inc a st hainc hst
    have hdfilter : d ∈ st.deps.filter (fun d => decide (d ∈ inc)) :=
      List.mem_filter.2 ⟨hd, by simpa using hdinc⟩
    exact hinvout.2.2 a ha _ hlk d hdfilter
  refine ⟨out, ?_, hinvout.1, ?_, ?_, ?_, ?_⟩
  · rw [resolve_order]
    simp only [hfind, if_true]
    rw [hinc]
    exact hkout
  · exact fun n hn => hincout n (hnamesinc n hn)
  · intro n hn st hst d hd
    exact hincout d (hincclosed n (houtinc n hn) st hst d hd)
  · intro S hSreq hSclosed n hn
    refine closureLoop_minimal reg _ _ _ inc S hinc hSclosed ?_ (fun x hx => hx)
      n (houtinc n hn)
    exact fun x hx => hSreq x ((mem_dedupFirst _ x).1 hx)
  · exact depends_lt reg out hdirect

theorem resolve_order_topological_validity_witness :
    (∀ st ∈ defaultRegistry, ∀ d ∈ st.deps, (lookupStage defaultRegistry d).isSome) ∧
    (∀ n ∈ namesOf defaultRegistry (some ["attribute_extraction"]),
      (lookupStage defaultRegistry n).isSome) ∧
    GoodOrderReg defaultRegistry
      ["category_detection", "element_extraction", "attribute_extraction"] ∧
    (∃ order, resolve_order defaultRegistry (some ["attribute_extraction"]) = .ok order ∧
      order.Nodup ∧
      (∀ n ∈ namesOf defaultRegistry (some ["attribute_extraction"]), n ∈ order) ∧
      (∀ n ∈ order, ∀ st, lookupStage defaultRegistry n = some st →
        ∀ d ∈ st.deps, d ∈ order) ∧
      (∀ S : List String,
        (∀ n ∈ namesOf defaultRegistry (some ["attribute_extraction"]), n ∈ S) →
        (∀ n ∈ S, ∀ st, lookupStage defaultRegistry n = some st →
          ∀ d ∈ st.deps, d ∈ S) →
        ∀ n ∈ order, n ∈ S) ∧
      (∀ a b, a ∈ order → Depends defaultRegistry a b →
        b ∈ order ∧ idxOf order b < idxOf order a)) :=
  ⟨by decide, by decide, by unfold GoodOrderReg; decide,
    resolve_order_topological_validity defaultRegistry (some ["attribute_extraction"])
      (by decide) (by decide)
      ⟨["category_detection", "element_extraction", "attribute_extraction"],
        by unfold GoodOrderReg; decide⟩⟩

/-- Nodes on a dependency path within the inclusion set appear in strictly
decreasing positions of any list satisfying the Kahn invariant for the
induced subgraph. -/
theorem depPath_lt (reg : Registry) (inc res : List String)
    (hinv : KahnInv (buildGraph reg inc) res) :
    ∀ a b, DepPath reg inc a b → a ∈ res → b ∈ res ∧ idxOf res b < idxOf res a := by
  intro a b hpath
  induction hpath with
  | edge a' b' st ha' hb' hst hdep =>
    intro hares
    have hlk := lookupDeps_buildGraph reg inc a' st ha' hst
    have hbfilter : b' ∈ st.deps.filter (fun d => decide (d ∈ inc)) :=
      List.mem_filter.2 ⟨hdep, by simpa using hb'⟩
    exact hinv.2.2 a' hares _ hlk b' hbfilter
  | tail a' b' c st ha' hc' hst hdep _ ih =>
    intro hares
    have hlk := lookupDeps_buildGraph reg inc a' st ha' hst
    have hcfilter : c ∈ st.deps.filter (fun d => decide (d ∈ inc)) :=
      List.mem_filter.2 ⟨hdep, by simpa using hc'⟩
    obtain ⟨hcres, hclt⟩ := hinv.2.2 a' hares _ hlk c hcfilter
    obtain ⟨hbres, hblt⟩ := ih hcres
    exact ⟨hbres, Nat.lt_trans hblt hclt⟩

/-- C2: when the dependency closure of the requested stages contains a
stage lying on a dependency cycle, `resolve_order` fails with a cycle
error naming a nonempty set of unresolved stages that contains that stage;
it never returns an order. -/
theorem resolve_order_cycle_fails (reg : Registry) (stage_names : Option (List String))
    (hreq : ∀ n ∈ namesOf reg stage_names, (lookupStage reg n).isSome)
    (inc : List String)
    (hinc : closureLoop reg (reg.length + (namesOf reg stage_names).length + 1)
      (dedupFirst (namesOf reg stage_names)) (dedupFirst (namesOf reg stage_names)) =
      .ok inc)
    (n : String) (hn : n ∈ inc) (hcyc : DepPath reg inc n n) :
    ∃ remaining, resolve_order reg stage_names = .error (.cycle remaining) ∧
      n ∈ remaining ∧ remaining ≠ [] := by
  have hfind : (namesOf reg stage_names).find?
      (fun n => (lookupStage reg n).isNone) = none := by
    rw [List.find?_eq_none]
    intro m hm hcon
    have hsome := hreq m hm
    rw [Option.isNone_iff_eq_none] at hcon
    rw [hcon] at hsome
    simp at hsome
  have hstartreg : ∀ x ∈ dedupFirst (namesOf reg stage_names),
      (lookupStage reg x).isSome :=
    fun x hx => hreq x ((mem_dedupFirst _ x).1 hx)
  have hincreg : ∀ x ∈ inc, (lookupStage reg x).isSome :=
    closureLoop_registered reg _ _ _ inc hinc hstartreg
  have hkeys : graphKeys (buildGraph reg inc) = inc :=
    graphKeys_buildGraph reg inc hincreg
  have hnotin : ∀ res, KahnInv (buildGraph reg inc) res → n ∉ res := by
    intro res hres hmem
    obtain ⟨-, hlt⟩ := depPath_lt reg inc res hres n n hcyc hmem
    omega
  have hresolve : resolve_order reg stage_names =
      kahnRun (buildGraph reg inc) (graphKeys (buildGraph reg inc)).length [] := by
    rw [resolve_order]
    simp only [hfind, if_true]
    rw [hinc]
    rfl
  cases hk : kahnRun (buildGraph reg inc) (graphKeys (buildGraph reg inc)).length [] with
  | ok out =>
    exfalso
    obtain ⟨hinvout, hkeysub, -, -⟩ :=
      kahnRun_ok (buildGraph reg inc) _ [] out hk (KahnInv_nil _)
    exact hnotin out hinvout (hkeysub n (by rw [hkeys]; exact hn))
  | error e =>
    obtain ⟨res, hresinv, he, hne, -⟩ :=
      kahnRun_error (buildGraph reg inc) _ [] e hk (KahnInv_nil _)
    refine ⟨remainingNodes (buildGraph reg inc) res, ?_, ?_, hne⟩
    · rw [hresolve, hk, he]
    · rw [mem_remainingNodes, hkeys]
      exact ⟨hn, hnotin res hresinv⟩

theorem resolve_order_cycle_fails_witness :
    (∀ m ∈ namesOf twoCycleRegistry none, (lookupStage twoCycleRegistry m).isSome) ∧
    closureLoop twoCycleRegistry (twoCycleRegistry.length +
        (namesOf twoCycleRegistry none).length + 1)
      (dedupFirst (namesOf twoCycleRegistry none))
      (dedupFirst (namesOf twoCycleRegistry none)) = .ok ["A", "B"] ∧
    "A" ∈ ["A", "B"] ∧
    (∃ remaining, resolve_order twoCycleRegistry none = .error (.cycle remaining) ∧
      "A" ∈ remaining ∧ remaining ≠ []) ∧
    resolve_order twoCycleRegistry none = .error (.cycle ["A", "B"]) :=
  ⟨by decide, rfl, by decide,
    resolve_order_cycle_fails twoCycleRegistry none (by decide) ["A", "B"] rfl
      "A" (by decide)
      (.tail "A" "A" "B" ⟨"A", ["B"]⟩ (by decide) (by decide) (by decide) (by decide)
        (.edge "B" "A" ⟨"B", ["A"]⟩ (by decide) (by decide) (by decide) (by decide))),
    rfl⟩

/-! ### Lemmas about the result merger -/

theorem foldl_mergeAttrStep :
    ∀ (l : List AttrDet) (acc : List AttributeResult),
    l.foldl mergeAttrStep acc = acc ++ mergeAttributesSpec l := by
  intro l
  induction l with
  | nil => intro acc; simp [mergeAttributesSpec]
  | cons x xs ih =>
    intro acc
    rw [List.foldl_cons]
    cases hx : x.«attribute» with
    | none =>
      rw [ih]
      simp [mergeAttrStep, hx, mergeAttributesSpec, List.filterMap_cons]
    | some n =>
      by_cases hn : n = ""
      · rw [ih]
        simp [mergeAttrStep, hx, hn, mergeAttributesSpec, List.filterMap_cons]
      · rw [ih]
        simp [mergeAttrStep, hx, hn, mergeAttributesSpec, List.filterMap_cons]

theorem foldl_mergeElemStep (stage3 : List (String × Stage3Out)) (cat_name : String) :
    ∀ (l : List ElemDet) (acc : List ElementResult),
    l.foldl (mergeElemStep stage3 cat_name) acc =
      acc ++ mergeElementsSpec stage3 cat_name l := by
  intro l
  induction l with
  | nil => intro acc; simp [mergeElementsSpec]
  | cons x xs ih =>
    intro acc
    rw [List.foldl_cons]
    cases hx : x.element with
    | none =>
      rw [ih]
      simp [mergeElemStep, hx, mergeElementsSpec, List.filterMap_cons]
    | some n =>
      by_cases hn : n = ""
      · rw [ih]
        simp [mergeElemStep, hx, hn, mergeElementsSpec, List.filterMap_cons]
      · rw [ih]
        simp [mergeElemStep, hx, hn, mergeElementsSpec, List.filterMap_cons,
          foldl_mergeAttrStep]

theorem foldl_mergeCatStep (stage2 : List (String × Stage2Out))
    (stage3 : List (String × Stage3Out)) :
    ∀ (l : List String) (acc : List CategoryResult),
    l.foldl (mergeCatStep stage2 stage3) acc =
      acc ++ mergeCategoriesSpec stage2 stage3 l := by
  intro l
  induction l with
  | nil => intro acc; simp [mergeCategoriesSpec]
  | cons x xs ih =>
    intro acc
    rw [List.foldl_cons, ih]
    simp only [mergeCatStep, mergeCategoriesSpec, List.map_cons, List.append_assoc]
    congr 3
    cases halo : alookup stage2 x with
    | none => simp
    | some cs2 => simp [foldl_mergeElemStep]

/-- C10: `_merge_single` is total on partially-shaped stage outputs and
equals its `filterMap` specification: detections with a missing or empty
element or attribute name are silently skipped, and missing sentiment,
confidence and excerpt fields are merged with the defaults `neutral`, `3`
and the empty string. -/
theorem merge_single_total_spec (text : String) (stage1 : Option Stage1Out)
    (stage2 : List (String × Stage2Out)) (stage3 : List (String × Stage3Out)) :
    merge_single text stage1 stage2 stage3 =
      { text := text,
        categories := mergeCategoriesSpec stage2 stage3
          (match stage1 with
           | some s1 => s1.categories_present
           | none => []) } := by
  rw [merge_single.eq_def]
  cases stage1 with
  | none => simp [foldl_mergeCatStep, mergeCategoriesSpec]
  | some s1 => simp [foldl_mergeCatStep]

/-- C10 witness: the specification equation evaluated at a concrete
partially-shaped context: an element detection with an empty name and an
attribute detection with no name are skipped, and missing fields take the
defaults. -/
theorem merge_single_total_spec_witness :
    merge_single "t" (some ⟨["A"]⟩)
      [("A", ⟨[⟨some "", some .positive, some 5, some "x"⟩,
               ⟨none, some .negative, none, none⟩,
               ⟨some "X", none, none, none⟩]⟩)]
      [("A::X", ⟨[⟨none, some .mixed, some 1, some "y"⟩,
                  ⟨some "P", none, none, none⟩]⟩)] =
      { text := "t",
        categories := mergeCategoriesSpec
          [("A", ⟨[⟨some "", some .positive, some 5, some "x"⟩,
                   ⟨none, some .negative, none, none⟩,
                   ⟨some "X", none, none, none⟩]⟩)]
          [("A::X", ⟨[⟨none, some .mixed, some 1, some "y"⟩,
                      ⟨some "P", none, none, none⟩]⟩)] ["A"] } ∧
    merge_single "t" (some ⟨["A"]⟩)
      [("A", ⟨[⟨some "", some .positive, some 5, some "x"⟩,
               ⟨none, some .negative, none, none⟩,
               ⟨some "X", none, none, none⟩]⟩)]
      [("A::X", ⟨[⟨none, some .mixed, some 1, some "y"⟩,
                  ⟨some "P", none, none, none⟩]⟩)] =
      { text := "t",
        categories := [⟨"A", [⟨"X", .neutral, 3, "", [⟨"P", .neutral, 3, ""⟩]⟩]⟩] } :=
  ⟨merge_single_total_spec "t" (some ⟨["A"]⟩) _ _, by decide⟩

/-- C3: merging the synthetic two-category context reconstructs exactly the
nested tree category `A` → element `X` → attribute `P`, with category `B`
present and empty, and no other nodes. -/
theorem merge_round_trip :
    merge mergeCtxRoundTrip =
      [("t", { text := "t",
               categories :=
                 [⟨"A", [⟨"X", .positive, 4, "ex", [⟨"P", .negative, 2, "ey"⟩]⟩]⟩,
                  ⟨"B", []⟩] })] := by
  decide

theorem merge_foldl_lookup (ctx : Ctx) :
    ∀ (entries : List (String × Stage1Out))
      (acc : List (String × FinalClassificationOutput)) (t : String),
    alookup (entries.foldl (fun results p =>
      upsert results p.1
        (merge_single p.1 (alookup ctx.stage1 p.1)
          ((alookup ctx.stage2 p.1).getD [])
          ((alookup ctx.stage3 p.1).getD []))) acc) t =
      if t ∈ entries.map (fun p => p.1) then
        some (merge_single t (alookup ctx.stage1 t)
          ((alookup ctx.stage2 t).getD [])
          ((alookup ctx.stage3 t).getD []))
      else alookup acc t := by
  intro entries
  induction entries with
  | nil => intro acc t; simp
  | cons p rest ih =>
    intro acc t
    rw [List.foldl_cons, ih]
    by_cases hmem : t ∈ rest.map (fun p => p.1)
    · simp [hmem]
    · rw [if_neg hmem]
      by_cases hpt : p.1 = t
      · subst hpt
        rw [alookup_upsert_self]
        simp
      · rw [alookup_upsert_ne _ _ _ _ hpt]
        have : t ∉ (p :: rest).map (fun p => p.1) := by
          simp only [List.map_cons, List.mem_cons]
          rintro (h | h)
          · exact hpt h.symm
          · exact hmem h
        rw [if_neg this]

theorem merge_lookup (ctx : Ctx) (t : String)
    (hmem : t ∈ ctx.stage1.map (fun p => p.1)) :
    alookup (merge ctx) t =
      some (merge_single t (alookup ctx.stage1 t)
        ((alookup ctx.stage2 t).getD [])
        ((alookup ctx.stage3 t).getD [])) := by
  rw [merge, merge_foldl_lookup ctx ctx.stage1 [] t, if_pos hmem]

/-! ### Lemmas about flat-record export -/

theorem foldl_flatAttrStep (text category element : String) (esent : Sentiment)
    (econf : Int) :
    ∀ (l : List AttributeResult) (acc : List FlatRecord),
    l.foldl (flatAttrStep text category element esent econf) acc =
      acc ++ l.map (fun attr => FlatRecord.attributeRow text category element esent
        econf attr.name attr.sentiment attr.confidence attr.excerpt) := by
  intro l
  induction l with
  | nil => intro acc; simp
  | cons x xs ih =>
    intro acc
    rw [List.foldl_cons, ih]
    simp [flatAttrStep]

theorem foldl_flatElemStep (text category : String) :
    ∀ (l : List ElementResult) (acc : List FlatRecord),
    l.foldl (flatElemStep text category) acc =
      acc ++ flatMapL (fun elem =>
        if elem.attributes.isEmpty then
          [FlatRecord.elementOnly text category elem.name elem.sentiment
            elem.confidence elem.excerpt]
        else
          elem.attributes.map (fun attr => FlatRecord.attributeRow text category
            elem.name elem.sentiment elem.confidence attr.name attr.sentiment
            attr.confidence attr.excerpt)) l := by
  intro l
  induction l with
  | nil => intro acc; simp [flatMapL]
  | cons x xs ih =>
    intro acc
    rw [List.foldl_cons, ih]
    by_cases hx : x.attributes.isEmpty
    · simp [flatElemStep, hx, flatMapL]
    · simp [flatElemStep, hx, flatMapL, foldl_flatAttrStep]

theorem foldl_flatCatStep (text : String) :
    ∀ (l : List CategoryResult) (acc : List FlatRecord),
    l.foldl (flatCatStep text) acc = acc ++ flatMapL (catRecords text) l := by
  intro l
  induction l with
  | nil => intro acc; simp [flatMapL]
  | cons x xs ih =>
    intro acc
    rw [List.foldl_cons, ih]
    by_cases hx : x.elements.isEmpty
    · simp [flatCatStep, hx, flatMapL, catRecords]
    · simp [flatCatStep, hx, flatMapL, catRecords, foldl_flatElemStep]

theorem to_flat_records_eq (results : List (String × FinalClassificationOutput)) :
    to_flat_records results =
      flatMapL (fun p => flatMapL (catRecords p.1) p.2.categories) results := by
  rw [to_flat_records]
  suffices h : ∀ (l : List (String × FinalClassificationOutput))
      (acc : List FlatRecord),
      l.foldl (fun records p => p.2.categories.foldl (flatCatStep p.1) records) acc =
        acc ++ flatMapL (fun p => flatMapL (catRecords p.1) p.2.categories) l by
    simpa using h results []
  intro l
  induction l with
  | nil => intro acc; simp [flatMapL]
  | cons x xs ih =>
    intro acc
    rw [List.foldl_cons, ih, foldl_flatCatStep]
    simp [flatMapL]

/-- C7 counterexample: for an element that has an excerpt and at least one
attribute, the only emitted rows are attribute rows, and no row of the
export carries an element excerpt field at all — the element's excerpt
`"E"` is dropped by the flattening. -/
theorem to_flat_records_drops_element_excerpt :
    to_flat_records
      [("t", ⟨"t", [⟨"C", [⟨"X", .positive, 4, "E", [⟨"P", .negative, 2, "a"⟩]⟩]⟩]⟩)] =
      [.attributeRow "t" "C" "X" .positive 4 "P" .negative 2 "a"] ∧
    ∀ r ∈ to_flat_records
      [("t", ⟨"t", [⟨"C", [⟨"X", .positive, 4, "E", [⟨"P", .negative, 2, "a"⟩]⟩]⟩]⟩)],
      recordElementExcerpt r = none := by
  decide

theorem catRecords_exists (text : String) (cat : CategoryResult) :
    ∃ r ∈ catRecords text cat, recordText r = text ∧ recordCategory r = cat.name ∧
      (cat.elements = [] → r = .categoryOnly text cat.name) := by
  cases helems : cat.elements with
  | nil =>
    refine ⟨.categoryOnly text cat.name, ?_, rfl, rfl, fun _ => rfl⟩
    simp [catRecords, helems]
  | cons e es =>
    have hne : ¬cat.elements.isEmpty := by rw [helems]; simp
    cases hattr : e.attributes with
    | nil =>
      refine ⟨.elementOnly text cat.name e.name e.sentiment e.confidence e.excerpt,
        ?_, rfl, rfl, fun hcon => by cases hcon⟩
      rw [catRecords, if_neg hne, helems]
      rw [flatMapL]
      refine List.mem_append_left _ ?_
      rw [if_pos (by rw [hattr]; simp)]
      exact .head _
    | cons a as =>
      refine ⟨.attributeRow text cat.name e.name e.sentiment e.confidence a.name
        a.sentiment a.confidence a.excerpt,
        ?_, rfl, rfl, fun hcon => by cases hcon⟩
      rw [catRecords, if_neg hne, helems]
      rw [flatMapL]
      refine List.mem_append_left _ ?_
      rw [if_neg (by rw [hattr]; simp), hattr]
      exact .head _

/-- C7 (amended): `to_flat_records` yields at least one row per detected
category of every merged text — a category-only row when the category has
no elements — and every row for that category carries the text and
category name; however (see the counterexample) attribute rows omit the
element excerpt and category-only rows carry no confidences or excerpts,
so the merged tree is not fully preserved. -/
theorem to_flat_records_row_per_category
    (results : List (String × FinalClassificationOutput))
    (p : String × FinalClassificationOutput) (hp : p ∈ results)
    (cat : CategoryResult) (hcat : cat ∈ p.2.categories) :
    ∃ r ∈ to_flat_records results, recordText r = p.1 ∧ recordCategory r = cat.name ∧
      (cat.elements = [] → r = .categoryOnly p.1 cat.name) := by
  obtain ⟨r, hr, h1, h2, h3⟩ := catRecords_exists p.1 cat
  refine ⟨r, ?_, h1, h2, h3⟩
  rw [to_flat_records_eq]
  rw [mem_flatMapL]
  exact ⟨p, hp, (mem_flatMapL _ _ _).2 ⟨cat, hcat, hr⟩⟩

theorem to_flat_records_row_per_category_witness :
    (("t", flatOutputTwoCats) ∈ [("t", flatOutputTwoCats)] ∧
      (⟨"C2", []⟩ : CategoryResult) ∈ flatOutputTwoCats.categories) ∧
    (∃ r ∈ to_flat_records [("t", flatOutputTwoCats)], recordText r = "t" ∧
      recordCategory r = (⟨"C2", []⟩ : CategoryResult).name ∧
      ((⟨"C2", []⟩ : CategoryResult).elements = [] →
        r = .categoryOnly "t" (⟨"C2", []⟩ : CategoryResult).name)) :=
  ⟨⟨by decide, by decide⟩,
    to_flat_records_row_per_category [("t", flatOutputTwoCats)]
      ("t", flatOutputTwoCats) (by decide) ⟨"C2", []⟩ (by decide)⟩

/-! ### Lemmas about the stage fan-out and aggregation -/

theorem mem_zip_left {α β : Type} :
    ∀ (l₁ : List α) (l₂ : List β) (pr : α × β), pr ∈ l₁.zip l₂ → pr.1 ∈ l₁ := by
  intro l₁
  induction l₁ with
  | nil => intro l₂ pr h; cases h
  | cons x xs ih =>
    intro l₂ pr h
    cases l₂ with
    | nil => cases h
    | cons y ys =>
      rw [List.zip_cons_cons] at h
      cases h with
      | head => exact .head _
      | tail _ h => exact .tail _ (ih ys pr h)

theorem zip_filter_fst {α β : Type} (p : α → Bool) :
    ∀ (l₁ : List α) (l₂ : List β), l₂.length = l₁.length →
    ((l₁.zip l₂).filter (fun pr => p pr.1)).map (fun pr => pr.1) = l₁.filter p := by
  intro l₁
  induction l₁ with
  | nil => intro l₂ _; simp
  | cons x xs ih =>
    intro l₂ hlen
    cases l₂ with
    | nil => simp at hlen
    | cons y ys =>
      rw [List.zip_cons_cons, List.filter_cons, List.filter_cons]
      by_cases hp : p x
      · simp only [hp, if_true, List.map_cons]
        rw [ih ys (by simpa using hlen)]
      · simp only [hp, Bool.false_eq_true, if_false]
        rw [ih ys (by simpa using hlen)]

theorem zip_filter_nil {α β : Type} (p : α → Bool) :
    ∀ (l₁ : List α) (l₂ : List β), l₁.filter p = [] →
    (l₁.zip l₂).filter (fun pr => p pr.1) = [] := by
  intro l₁
  induction l₁ with
  | nil => intro l₂ _; simp
  | cons x xs ih =>
    intro l₂ hnil
    rw [List.filter_cons] at hnil
    by_cases hp : p x
    · rw [if_pos hp] at hnil; cases hnil
    · rw [if_neg hp] at hnil
      cases l₂ with
      | nil => simp
      | cons y ys =>
        rw [List.zip_cons_cons, List.filter_cons]
        simp only [hp, Bool.false_eq_true, if_false]
        exact ih ys hnil

theorem map_fst_eq_pair {α β : Type} (f : α → β) :
    ∀ (l : List α) (x y : β), l.map f = [x, y] →
    ∃ u v, l = [u, v] ∧ f u = x ∧ f v = y := by
  intro l x y h
  match l with
  | [] => cases h
  | [u] => cases h
  | u :: v :: w :: rest => cases h
  | [u, v] =>
    rw [List.map_cons, List.map_cons, List.map_nil] at h
    cases h
    exact ⟨u, v, rfl, rfl, rfl⟩

theorem flatMapL_nil_of {α β : Type} (g : α → List β) :
    ∀ (l : List α), (∀ t ∈ l, g t = []) → flatMapL g l = [] := by
  intro l
  induction l with
  | nil => intro _; rfl
  | cons x xs ih =>
    intro h
    rw [flatMapL, h x (.head _), ih (fun t ht => h t (.tail _ ht))]
    rfl

theorem flatMapL_single {β : Type} (g : String → List β) :
    ∀ (texts : List String) (t0 : String), texts.Nodup → t0 ∈ texts →
    (∀ t ∈ texts, t ≠ t0 → g t = []) → flatMapL g texts = g t0 := by
  intro texts
  induction texts with
  | nil => intro t0 _ h; cases h
  | cons x xs ih =>
    intro t0 hnd hmem hother
    by_cases hx : x = t0
    · subst hx
      rw [flatMapL, flatMapL_nil_of g xs (fun t ht => hother t (.tail _ ht)
        (fun hteq => (List.nodup_cons.1 hnd).1 (hteq ▸ ht)))]
      simp
    · rw [flatMapL, hother x (.head _) hx]
      have hmem' : t0 ∈ xs := by
        cases hmem with
        | head => exact absurd rfl hx
        | tail _ h => exact h
      rw [ih t0 (List.nodup_cons.1 hnd).2 hmem' (fun t ht => hother t (.tail _ ht))]
      rfl

theorem elementExtraction_build_tasks_text (texts : List String) (ctx : Ctx) :
    ∀ task ∈ elementExtraction_build_tasks texts ctx, task.text ∈ texts := by
  intro task htask
  rw [elementExtraction_build_tasks, mem_flatMapL] at htask
  obtain ⟨t, ht, htask⟩ := htask
  cases hs1 : alookup ctx.stage1 t with
  | none => rw [hs1] at htask; cases htask
  | some s1 =>
    rw [hs1] at htask
    obtain ⟨c, -, hc⟩ := List.mem_map.1 htask
    cases hc
    exact ht

theorem attributeExtraction_build_tasks_text (texts : List String) (ctx : Ctx) :
    ∀ task ∈ attributeExtraction_build_tasks texts ctx, task.text ∈ texts := by
  intro task htask
  rw [attributeExtraction_build_tasks, mem_flatMapL] at htask
  obtain ⟨t, ht, htask⟩ := htask
  cases hs2 : alookup ctx.stage2 t with
  | none => rw [hs2] at htask; cases htask
  | some s2 =>
    rw [hs2] at htask
    rw [mem_flatMapL] at htask
    obtain ⟨p, -, htask⟩ := htask
    obtain ⟨det, -, hdet⟩ := List.mem_filterMap.1 htask
    cases hd : det.element with
    | none => simp only [hd] at hdet; cases hdet
    | some en =>
      simp only [hd] at hdet
      by_cases hen : en = ""
      · rw [if_pos hen] at hdet; cases hdet
      · rw [if_neg hen] at hdet
        cases hdet
        exact ht

theorem elem_agg_lookup :
    ∀ (pairs : List (ElementExtractionTask × Stage2Out))
      (m : List (String × List (String × Stage2Out))) (t : String)
      (v : List (String × Stage2Out)),
    alookup m t = some v →
    alookup (pairs.foldl (fun results tr =>
        upsert results tr.1.text
          (upsert ((alookup results tr.1.text).getD []) tr.1.category tr.2)) m) t =
      some ((pairs.filter (fun tr => tr.1.text == t)).foldl
        (fun inner tr => upsert inner tr.1.category tr.2) v) := by
  intro pairs
  induction pairs with
  | nil => intro m t v h; simpa using h
  | cons p rest ih =>
    intro m t v h
    rw [List.foldl_cons, List.filter_cons]
    by_cases hpt : p.1.text = t
    · rw [if_pos (by simpa using hpt)]
      rw [List.foldl_cons]
      refine ih _ t (upsert v p.1.category p.2) ?_
      rw [hpt, h]
      simpa [hpt] using alookup_upsert_self m t (upsert v p.1.category p.2)
    · rw [if_neg (by simpa using hpt)]
      refine ih _ t v ?_
      rw [alookup_upsert_ne _ _ _ _ hpt]
      exact h

theorem attr_agg_lookup :
    ∀ (pairs : List (AttributeExtractionTask × Stage3Out))
      (m : List (String × List (String × Stage3Out))) (t : String)
      (v : List (String × Stage3Out)),
    alookup m t = some v →
    alookup (pairs.foldl (fun results tr =>
        upsert results tr.1.text
          (upsert ((alookup results tr.1.text).getD [])
            (tr.1.category ++ "::" ++ tr.1.element) tr.2)) m) t =
      some ((pairs.filter (fun tr => tr.1.text == t)).foldl
        (fun inner tr => upsert inner (tr.1.category ++ "::" ++ tr.1.element) tr.2) v) := by
  intro pairs
  induction pairs with
  | nil => intro m t v h; simpa using h
  | cons p rest ih =>
    intro m t v h
    rw [List.foldl_cons, List.filter_cons]
    by_cases hpt : p.1.text = t
    · rw [if_pos (by simpa using hpt)]
      rw [List.foldl_cons]
      refine ih _ t (upsert v (p.1.category ++ "::" ++ p.1.element) p.2) ?_
      rw [hpt, h]
      simpa [hpt] using alookup_upsert_self m t
        (upsert v (p.1.category ++ "::" ++ p.1.element) p.2)
    · rw [if_neg (by simpa using hpt)]
      refine ih _ t v ?_
      rw [alookup_upsert_ne _ _ _ _ hpt]
      exact h

theorem elem_agg_keys :
    ∀ (pairs : List (ElementExtractionTask × Stage2Out))
      (m : List (String × List (String × Stage2Out))),
    (∀ tr ∈ pairs, tr.1.text ∈ m.map (fun p => p.1)) →
    ((pairs.foldl (fun results tr =>
        upsert results tr.1.text
          (upsert ((alookup results tr.1.text).getD []) tr.1.category tr.2)) m).map
      (fun p => p.1)) = m.map (fun p => p.1) := by
  intro pairs
  induction pairs with
  | nil => intro m _; rfl
  | cons p rest ih =>
    intro m hmem
    rw [List.foldl_cons]
    have hkeys := keys_upsert_mem m p.1.text
      (upsert ((alookup m p.1.text).getD []) p.1.category p.2) (hmem p (.head _))
    rw [ih _ (fun tr htr => by rw [hkeys]; exact hmem tr (.tail _ htr)), hkeys]

theorem attr_agg_keys :
    ∀ (pairs : List (AttributeExtractionTask × Stage3Out))
      (m : List (String × List (String × Stage3Out))),
    (∀ tr ∈ pairs, tr.1.text ∈ m.map (fun p => p.1)) →
    ((pairs.foldl (fun results tr =>
        upsert results tr.1.text
          (upsert ((alookup results tr.1.text).getD [])
            (tr.1.category ++ "::" ++ tr.1.element) tr.2)) m).map
      (fun p => p.1)) = m.map (fun p => p.1) := by
  intro pairs
  induction pairs with
  | nil => intro m _; rfl
  | cons p rest ih =>
    intro m hmem
    rw [List.foldl_cons]
    have hkeys := keys_upsert_mem m p.1.text
      (upsert ((alookup m p.1.text).getD [])
        (p.1.category ++ "::" ++ p.1.element) p.2) (hmem p (.head _))
    rw [ih _ (fun tr htr => by rw [hkeys]; exact hmem tr (.tail _ htr)), hkeys]

/-- C9: for both fan-out stages, `process` returns a mapping whose key set
is exactly the set of distinct input texts, with no duplicates: every input
text receives an entry and no other keys appear, for any context and any
collaborator. -/
theorem process_key_sets (texts : List String) (ctx : Ctx)
    (llm2 : List ElementExtractionTask → List Stage2Out)
    (llm3 : List AttributeExtractionTask → List Stage3Out) :
    (((elementExtractionProcess texts ctx llm2).map (fun p => p.1)).Nodup ∧
      ∀ t, t ∈ (elementExtractionProcess texts ctx llm2).map (fun p => p.1) ↔
        t ∈ texts) ∧
    (((attributeExtractionProcess texts ctx llm3).map (fun p => p.1)).Nodup ∧
      ∀ t, t ∈ (attributeExtractionProcess texts ctx llm3).map (fun p => p.1) ↔
        t ∈ texts) := by
  constructor
  · cases htasks : elementExtraction_build_tasks texts ctx with
    | nil =>
      simp only [elementExtractionProcess, htasks]
      exact ⟨initResults_keys_nodup texts [], fun t => initResults_mem_keys texts [] t⟩
    | cons task rest =>
      simp only [elementExtractionProcess, htasks]
      rw [elem_agg_keys _ _ (fun tr htr => by
        rw [initResults_mem_keys]
        refine elementExtraction_build_tasks_text texts ctx tr.1 ?_
        rw [htasks]
        exact mem_zip_left _ _ tr htr)]
      exact ⟨initResults_keys_nodup texts [], fun t => initResults_mem_keys texts [] t⟩
  · cases htasks : attributeExtraction_build_tasks texts ctx with
    | nil =>
      simp only [attributeExtractionProcess, htasks]
      exact ⟨initResults_keys_nodup texts [], fun t => initResults_mem_keys texts [] t⟩
    | cons task rest =>
      simp only [attributeExtractionProcess, htasks]
      rw [attr_agg_keys _ _ (fun tr htr => by
        rw [initResults_mem_keys]
        refine attributeExtraction_build_tasks_text texts ctx tr.1 ?_
        rw [htasks]
        exact mem_zip_left _ _ tr htr)]
      exact ⟨initResults_keys_nodup texts [], fun t => initResults_mem_keys texts [] t⟩

theorem process_key_sets_witness :
    (((elementExtractionProcess ["u", "t"] mergeCtxRoundTrip
        (fun tasks => tasks.map (fun _ => ⟨[]⟩))).map (fun p => p.1)).Nodup ∧
      ("t" ∈ (elementExtractionProcess ["u", "t"] mergeCtxRoundTrip
        (fun tasks => tasks.map (fun _ => ⟨[]⟩))).map (fun p => p.1) ↔
        "t" ∈ ["u", "t"])) ∧
    (((attributeExtractionProcess ["u", "t"] mergeCtxRoundTrip
        (fun tasks => tasks.map (fun _ => ⟨[]⟩))).map (fun p => p.1)).Nodup ∧
      ("u" ∈ (attributeExtractionProcess ["u", "t"] mergeCtxRoundTrip
        (fun tasks => tasks.map (fun _ => ⟨[]⟩))).map (fun p => p.1) ↔
        "u" ∈ ["u", "t"])) :=
  ⟨⟨(process_key_sets ["u", "t"] mergeCtxRoundTrip
      (fun tasks => tasks.map (fun _ => ⟨[]⟩))
      (fun tasks => tasks.map (fun _ => ⟨[]⟩))).1.1,
    (process_key_sets ["u", "t"] mergeCtxRoundTrip
      (fun tasks => tasks.map (fun _ => ⟨[]⟩))
      (fun tasks => tasks.map (fun _ => ⟨[]⟩))).1.2 "t"⟩,
   ⟨(process_key_sets ["u", "t"] mergeCtxRoundTrip
      (fun tasks => tasks.map (fun _ => ⟨[]⟩))
      (fun tasks => tasks.map (fun _ => ⟨[]⟩))).2.1,
    (process_key_sets ["u", "t"] mergeCtxRoundTrip
      (fun tasks => tasks.map (fun _ => ⟨[]⟩))
      (fun tasks => tasks.map (fun _ => ⟨[]⟩))).2.2 "u"⟩⟩

/-- C4: for a text whose stage-1 result detected exactly the two distinct
categories `c1, c2`, stage 2 builds exactly the two tasks (text, c1) and
(text, c2) for that text, and the stage-2 output map for that text has
exactly the keys `[c1, c2]`. -/
theorem fanout_cardinality (texts : List String) (ctx : Ctx)
    (llm : List ElementExtractionTask → List Stage2Out)
    (text c1 c2 : String)
    (hnd : texts.Nodup) (htext : text ∈ texts)
    (hs1 : alookup ctx.stage1 text = some ⟨[c1, c2]⟩) (hne : c1 ≠ c2)
    (hlen : (llm (elementExtraction_build_tasks texts ctx)).length =
      (elementExtraction_build_tasks texts ctx).length) :
    (elementExtraction_build_tasks texts ctx).filter
      (fun task => task.text == text) = [⟨text, c1⟩, ⟨text, c2⟩] ∧
    ∃ m, alookup (elementExtractionProcess texts ctx llm) text = some m ∧
      m.map (fun p => p.1) = [c1, c2] := by
  have htasksfor : (elementExtraction_build_tasks texts ctx).filter
      (fun task => task.text == text) = [⟨text, c1⟩, ⟨text, c2⟩] := by
    rw [elementExtraction_build_tasks, filter_flatMapL]
    rw [flatMapL_single _ texts text hnd htext ?hother]
    case hother =>
      intro t ht htne
      cases hs : alookup ctx.stage1 t with
      | none => simp
      | some s1 =>
        simp only [hs]
        rw [List.filter_eq_nil_iff]
        intro task htask
        obtain ⟨c, -, hc⟩ := List.mem_map.1 htask
        cases hc
        simp [htne]
    simp [hs1]
  refine ⟨htasksfor, ?_⟩
  have hinit : alookup (initResults texts ([] : List (String × Stage2Out))) text =
      some [] := by
    rw [alookup_initResults, if_pos htext]
  cases htasks : elementExtraction_build_tasks texts ctx with
  | nil =>
    rw [htasks] at htasksfor
    cases htasksfor
  | cons task rest =>
    simp only [elementExtractionProcess, htasks]
    rw [elem_agg_lookup _ _ text [] hinit]
    have hlen' : (llm (task :: rest)).length = (task :: rest).length := by
      rw [← htasks]
      exact hlen
    have hfz := zip_filter_fst (fun task => task.text == text) (task :: rest)
      (llm (task :: rest)) hlen'
    rw [htasks] at htasksfor
    rw [htasksfor] at hfz
    obtain ⟨u, v, hluv, hu, hv⟩ := map_fst_eq_pair _ _ _ _ hfz
    rw [hluv]
    simp only [List.foldl_cons, List.foldl_nil, hu, hv]
    refine ⟨_, rfl, ?_⟩
    simp [upsert, hne]

/-- C5: a text whose stage-1 entry detected zero categories still receives
a present-but-empty map from stage 2's `process`, and the merged output
still contains the text, with an empty category list. -/
theorem empty_detection_idempotence (texts : List String) (ctx : Ctx)
    (llm : List ElementExtractionTask → List Stage2Out) (text : String)
    (htext : text ∈ texts) (hs1 : alookup ctx.stage1 text = some ⟨[]⟩) :
    alookup (elementExtractionProcess texts ctx llm) text = some [] ∧
    alookup (merge ctx) text = some { text := text, categories := [] } := by
  constructor
  · have hfilternil : (elementExtraction_build_tasks texts ctx).filter
        (fun task => task.text == text) = [] := by
      rw [elementExtraction_build_tasks, filter_flatMapL]
      apply flatMapL_nil_of
      intro t ht
      by_cases hteq : t = text
      · subst hteq
        simp [hs1]
      · cases hs : alookup ctx.stage1 t with
        | none => simp
        | some s1 =>
          simp only [hs]
          rw [List.filter_eq_nil_iff]
          intro task htask
          obtain ⟨c, -, hc⟩ := List.mem_map.1 htask
          cases hc
          simp [hteq]
    have hinit : alookup (initResults texts ([] : List (String × Stage2Out))) text =
        some [] := by
      rw [alookup_initResults, if_pos htext]
    cases htasks : elementExtraction_build_tasks texts ctx with
    | nil =>
      simp only [elementExtractionProcess, htasks]
      exact hinit
    | cons task rest =>
      simp only [elementExtractionProcess, htasks]
      rw [elem_agg_lookup _ _ text [] hinit]
      rw [htasks] at hfilternil
      rw [zip_filter_nil _ _ _ hfilternil]
      rfl
  · have hmem : text ∈ ctx.stage1.map (fun p => p.1) := by
      rw [← alookup_isSome_iff_mem_keys, hs1]
      rfl
    rw [merge_lookup ctx text hmem, hs1]
    rfl

theorem fanout_cardinality_witness :
    (["t"].Nodup ∧ "t" ∈ ["t"] ∧
      alookup mergeCtxRoundTrip.stage1 "t" = some ⟨["A", "B"]⟩ ∧ "A" ≠ "B" ∧
      ((fun tasks : List ElementExtractionTask =>
            tasks.map (fun _ => (⟨[]⟩ : Stage2Out)))
          (elementExtraction_build_tasks ["t"] mergeCtxRoundTrip)).length =
        (elementExtraction_build_tasks ["t"] mergeCtxRoundTrip).length) ∧
    ((elementExtraction_build_tasks ["t"] mergeCtxRoundTrip).filter
      (fun task => task.text == "t") = [⟨"t", "A"⟩, ⟨"t", "B"⟩] ∧
    ∃ m, alookup (elementExtractionProcess ["t"] mergeCtxRoundTrip
        (fun tasks => tasks.map (fun _ => ⟨[]⟩))) "t" = some m ∧
      m.map (fun p => p.1) = ["A", "B"]) :=
  ⟨⟨by decide, by decide, by decide, by decide, by simp⟩,
    fanout_cardinality ["t"] mergeCtxRoundTrip
      (fun tasks => tasks.map (fun _ => ⟨[]⟩)) "t" "A" "B"
      (by decide) (by decide) (by decide) (by decide) (by simp)⟩

theorem empty_detection_idempotence_witness :
    ("t" ∈ ["t"] ∧ alookup emptyDetectCtx.stage1 "t" = some ⟨[]⟩) ∧
    (alookup (elementExtractionProcess ["t"] emptyDetectCtx
        (fun tasks => tasks.map (fun _ => ⟨[]⟩))) "t" = some [] ∧
      alookup (merge emptyDetectCtx) "t" = some { text := "t", categories := [] }) :=
  ⟨⟨by decide, by decide⟩,
    empty_detection_idempotence ["t"] emptyDetectCtx
      (fun tasks => tasks.map (fun _ => ⟨[]⟩)) "t" (by decide) (by decide)⟩

/-- C6 counterexample: for a category with no defined elements, schema
construction does fail — `get_stage2_schema` returns the "No elements
found" error rather than a usable contract. -/
theorem get_stage2_schema_gap_fails :
    gapContent.get_all_element_names "A" = [] ∧
    get_stage2_schema gapContent emptyFactoryState "A" =
      (.error (.noElements "A"), emptyFactoryState) :=
  ⟨rfl, rfl⟩

/-- C6 (amended): `get_stage3_schema` never fails — for an element with no
defined attributes (and no stale cache entry) it returns the degenerate
contract permitting an empty attribute list — while `get_stage2_schema`
for a category with no defined elements (and no stale cache entry) fails
with an error instead of returning a contract. -/
theorem schema_gap_behaviour (content : ContentProvider) (s : FactoryState)
    (category element : String)
    (hattr : content.get_all_attribute_names category element = [])
    (hcache3 : alookup s.stage3 (category ++ ":" ++ element) = none)
    (helem : content.get_all_element_names category = [])
    (hcache2 : alookup s.stage2 category = none) :
    (get_stage3_schema content s category element).1 =
      { category := category, element := element, attributeNames := none,
        hasSentimentConsensus := false } ∧
    (get_stage2_schema content s category).1 = .error (.noElements category) := by
  constructor
  · simp only [get_stage3_schema, hcache3]
    rw [build_stage3_schema]
    simp [hattr]
  · simp only [get_stage2_schema, hcache2]
    rw [build_stage2_schema]
    simp [helem]

theorem schema_gap_behaviour_witness :
    (gapContent.get_all_attribute_names "A" "X" = [] ∧
      alookup emptyFactoryState.stage3 ("A" ++ ":" ++ "X") = none ∧
      gapContent.get_all_element_names "A" = [] ∧
      alookup emptyFactoryState.stage2 "A" = none) ∧
    ((get_stage3_schema gapContent emptyFactoryState "A" "X").1 =
      { category := "A", element := "X", attributeNames := none,
        hasSentimentConsensus := false } ∧
    (get_stage2_schema gapContent emptyFactoryState "A").1 =
      .error (.noElements "A")) :=
  ⟨⟨rfl, rfl, rfl, rfl⟩,
    schema_gap_behaviour gapContent emptyFactoryState "A" "X" rfl rfl rfl rfl⟩

/-- C8: the stage-3 schema cache is keyed by the string
`f"{category}:{element}"`, which is not injective in the (category,
element) pair: the distinct pairs ("a:b", "c") and ("a", "b:c") share the
cache key "a:b:c", so the second call returns the very schema cached for
the first pair — its `category` Literal is "a:b", not "a" — contradicting
both the claim and the factory's own per-pair contract. -/
theorem get_stage3_schema_cache_collision :
    (("a:b", "c") ≠ ("a", "b:c")) ∧
    (get_stage3_schema collisionContent
        (get_stage3_schema collisionContent emptyFactoryState "a:b" "c").2
        "a" "b:c").1 =
      (get_stage3_schema collisionContent emptyFactoryState "a:b" "c").1 ∧
    (get_stage3_schema collisionContent
        (get_stage3_schema collisionContent emptyFactoryState "a:b" "c").2
        "a" "b:c").1.category = "a:b" :=
  ⟨by decide, rfl, rfl⟩
